import Mathlib

/-!
Verification of the reactive computation core of the ELN repository
(`src/logic.py`).  The tables are pandas DataFrames of 64-bit floats; the
computations use elementwise arithmetic in which division by zero, `NaN`
("unset" cells) and the masking operations `x[np.isnan(x)] = c` are
load-bearing.  We embed cell values as an inductive type `FV` over `ℚ`
(finite value, +infinity, -infinity, NaN) with the IEEE-754 special-value
rules for the operations the source actually performs.  Decimal rounding
(`DataFrame.round(digit)`) is modelled by `roundTo`; every property below
that involves rounding only uses the bound `|roundTo d x - x| ≤ 1/2/10^d`,
which is valid for any tie-breaking rule, so the difference between
banker's rounding (floats) and round-half-up (`Mathlib.round`) is
immaterial.
-/

namespace ELN

/-- A 64-bit float value as used in the tables of `logic.py`: a finite
rational, one of the two infinities, or `NaN` (which pandas uses for
missing/"unset" cells). -/
inductive FV where
  | fin : ℚ → FV
  | pinf : FV
  | ninf : FV
  | nan : FV
  deriving DecidableEq, Repr

namespace FV

/-- `np.isnan`. -/
def isNan : FV → Bool
  | nan => true
  | _ => false

/-- The value is finite. -/
def isFin : FV → Bool
  | fin _ => true
  | _ => false

/-- The rational carried by a finite value (junk `0` on the specials). -/
def val : FV → ℚ
  | fin x => x
  | _ => 0

/-- IEEE-754 addition. -/
def add : FV → FV → FV
  | nan, _ => nan
  | _, nan => nan
  | pinf, ninf => nan
  | ninf, pinf => nan
  | pinf, _ => pinf
  | _, pinf => pinf
  | ninf, _ => ninf
  | _, ninf => ninf
  | fin a, fin b => fin (a + b)

/-- IEEE-754 negation. -/
def neg : FV → FV
  | nan => nan
  | pinf => ninf
  | ninf => pinf
  | fin a => fin (-a)

/-- IEEE-754 subtraction. -/
def sub (a b : FV) : FV := a.add b.neg

/-- IEEE-754 multiplication (`0 * inf = NaN`). -/
def mul : FV → FV → FV
  | nan, _ => nan
  | _, nan => nan
  | pinf, pinf => pinf
  | pinf, ninf => ninf
  | ninf, pinf => ninf
  | ninf, ninf => pinf
  | pinf, fin b => if b = 0 then nan else if 0 < b then pinf else ninf
  | fin a, pinf => if a = 0 then nan else if 0 < a then pinf else ninf
  | ninf, fin b => if b = 0 then nan else if 0 < b then ninf else pinf
  | fin a, ninf => if a = 0 then nan else if 0 < a then ninf else pinf
  | fin a, fin b => fin (a * b)

/-- IEEE-754 division (`x/0 = ±inf` for `x ≠ 0`, `0/0 = NaN`).  `ℚ` has no
signed zero, so a zero divisor is treated as `+0`; the source never divides
by a computed negative zero. -/
def div : FV → FV → FV
  | nan, _ => nan
  | _, nan => nan
  | pinf, pinf => nan
  | pinf, ninf => nan
  | ninf, pinf => nan
  | ninf, ninf => nan
  | pinf, fin b => if 0 ≤ b then pinf else ninf
  | ninf, fin b => if 0 ≤ b then ninf else pinf
  | fin _, pinf => fin 0
  | fin _, ninf => fin 0
  | fin a, fin b =>
      if b = 0 then (if a = 0 then nan else if 0 < a then pinf else ninf)
      else fin (a / b)

/-- The masking assignment `x[np.isnan(x)] = 0.` on one cell
(also `DataFrame.fillna(0.)`). -/
def nanToZero (v : FV) : FV := if v = nan then fin 0 else v

/-- `np.minimum` on two values (`NaN` propagates, as in `ndarray.min`). -/
def fvMin : FV → FV → FV
  | nan, _ => nan
  | _, nan => nan
  | ninf, _ => ninf
  | _, ninf => ninf
  | pinf, b => b
  | a, pinf => a
  | fin a, fin b => fin (min a b)

/-- `np.maximum` on two values (`NaN` propagates). -/
def fvMax : FV → FV → FV
  | nan, _ => nan
  | _, nan => nan
  | pinf, _ => pinf
  | _, pinf => pinf
  | ninf, b => b
  | a, ninf => a
  | fin a, fin b => fin (max a b)

end FV

/-- `ndarray.min` along an axis: fold of `fvMin`.  The identity `+inf` is
never returned on its own because the source only reduces non-empty axes. -/
def fvMinList (l : List FV) : FV := l.foldr FV.fvMin FV.pinf

/-- `ndarray.max` along an axis: fold of `fvMax`. -/
def fvMaxList (l : List FV) : FV := l.foldr FV.fvMax FV.ninf

/-- `DataFrame.sum(axis=1)` / `Series.sum`: pandas sums with
`skipna=True`, i.e. `NaN` entries are dropped and the rest are added. -/
def pdSum (l : List FV) : FV :=
  (l.filter (fun v => !v.isNan)).foldr FV.add (FV.fin 0)

/-- `ndarray.sum(axis=0)` on one cell position: plain fold of IEEE
addition, `NaN` propagates. -/
def npSum (l : List FV) : FV := l.foldr FV.add (FV.fin 0)

/-- A Python `bool` used in float arithmetic (`False = 0.0`, `True = 1.0`). -/
def boolQ (b : Bool) : ℚ := if b then 1 else 0

/-- `round` to `d` decimal places, as in `DataFrame.round(digit)`. -/
def roundTo (d : ℕ) (x : ℚ) : ℚ := (round (x * 10 ^ d) : ℤ) / 10 ^ d

/-- `DataFrame.round(digit)` on one cell: `NaN` and the infinities are
left unchanged. -/
def FV.round (d : ℕ) : FV → FV
  | FV.fin x => FV.fin (roundTo d x)
  | v => v

/-! ## SourceMaterial (`logic.py` lines 9–115) -/

/-- `SourceMaterial.make_column(columns, unit)`.  The two `assert`s are
modelled as `Except.error` (an `AssertionError` aborts construction before
any table exists).  Note the source tests `unit == 'M'` — not `'mM'` —
before appending the `g/mol` column. -/
def make_column (columns0 : Option (List String)) (unit0 : Option String) :
    Except String (List String) :=
  let columns := columns0.getD ["Material", "Lot", "wt%"]
  match unit0 with
  | some unit =>
      if unit = "wt%" ∨ unit = "mM" then
        let columns := if unit ∈ columns then columns else columns ++ [unit]
        if unit = "M" ∧ "g/mol" ∉ columns then Except.ok (columns ++ ["g/mol"])
        else Except.ok columns
      else Except.error "AssertionError: unit must be wt% or mM"
  | none =>
      let wt := "wt%" ∈ columns
      let m := "mM" ∈ columns
      if (wt ∧ ¬ m) ∨ (¬ wt ∧ m) then
        let unit := if wt then "wt%" else "mM"
        if unit = "M" ∧ "g/mol" ∉ columns then Except.ok (columns ++ ["g/mol"])
        else Except.ok columns
      else Except.error "AssertionError: unit must be wt% or mM"

/-- One row of the `SourceMaterial` table in `mM` unit mode (columns
`Material`, `Lot`, `wt%`, `mM`, `g/mol`). -/
structure SMRow where
  material : String
  lot : Option String
  wt : FV
  mm : ℚ
  gmol : ℚ
  deriving DecidableEq, Repr

/-- The `mM` branch of `SourceMaterial.weight_percent`: overwrite the `wt%`
column with `(mM * g/mol / 1000) / ((mM * g/mol / 1000) + 1000) * 100`
(the multiplications and the division by the literal 1000 act on finite
floats and stay finite; the remaining division is IEEE). -/
def sm_weight_percent_mM (r : SMRow) : SMRow :=
  let s : ℚ := r.mm * r.gmol / 1000
  { r with wt := ((FV.fin s).div (FV.fin (s + 1000))).mul (FV.fin 100) }

/-! ## Work / WorkPreMixture (`logic.py` lines 633–692) -/

/-- A row of a `Weight`-shaped table: the name cell (the index column) and
the numeric cells of the remaining columns, in column order. -/
structure NamedRow where
  name : String
  cells : List FV
  deriving DecidableEq, Repr

/-- `Work.update_data`: copy `weight.data`, keep the `Composition` index
column, assign `np.nan` to every other cell (`data[slice(None)] = np.nan`). -/
def work_update_data (weightData : List NamedRow) : List NamedRow :=
  weightData.map (fun r => { name := r.name, cells := r.cells.map (fun _ => FV.nan) })

/-- `WorkPreMixture.update_data`: the same computation with the premixture
name column as the index. -/
def work_premixture_update_data (weightData : List NamedRow) : List NamedRow :=
  weightData.map (fun r => { name := r.name, cells := r.cells.map (fun _ => FV.nan) })

/-! ## PreMixture (`logic.py` lines 119–267) -/

/-- The `PreMixture` table: its name column (label `self._name` and the
per-row values) plus the remaining columns as an ordered mapping from
column label to column data (row order is positional). -/
structure PMTable where
  nameLabel : String
  names : List String
  cols : List (String × List FV)
  deriving DecidableEq, Repr

/-- The total-column label derived from the material table's unit mode
(`match` at lines 198–204). -/
def premixture_total_label (unit : String) : Except String String :=
  if unit = "wt%" then Except.ok "TotalWeight"
  else if unit = "mM" then Except.ok "TotalVolume"
  else Except.error "ValueError: material.unit is not supported"

/-- `PreMixture.update_column` on an existing table (lines 214–232):
`value_old` keeps every non-name column, `value_append` zero-fills each
material name absent from `data.columns`, and the `reindex` keeps exactly
`[name] + material_names + [total]`, turning a label with no column into a
`NaN` column (which cannot happen for material labels, all covered by
`value_append`). -/
def update_column (materialNames : List String) (total : String) (t : PMTable) :
    PMTable :=
  let nrows := t.names.length
  let valueOld := t.cols
  let valueAppend :=
    (materialNames.filter
      (fun k => ¬ (k = t.nameLabel ∨ k ∈ valueOld.map Prod.fst))).map
      (fun k => (k, List.replicate nrows (FV.fin 0)))
  let pool := valueOld ++ valueAppend
  let newCols := (materialNames ++ [total]).map
    (fun k => (k, (pool.lookup k).getD (List.replicate nrows FV.nan)))
  { t with cols := newCols }

/-! ## Weight (`logic.py` lines 413–555), unit mode `wt%`.

In `wt%` mode `composition.weight_percent` is the composition table minus
the premixture boolean columns, `material.weight_percent` is the material
table itself, and `premixture.weight_percent` appends the computed column
`Solvent = 100 - sum(material columns)`. -/

/-- One row of the `Composition` table (name, one percent per material,
one boolean per premixture, `TotalWeight`). -/
structure CompRow where
  name : String
  percents : List ℚ
  bools : List Bool
  total : ℚ
  deriving DecidableEq, Repr

/-- One row of the `Weight` table: name, the stock mass of each material,
the consumed fraction of each premixture, and `Solvent`. -/
structure WRow where
  name : String
  mats : List FV
  pres : List FV
  solvent : FV
  deriving DecidableEq, Repr

/-- Step 1 of `Weight.update_data` (lines 459–463): the target mass of each
material, `weight_percent[material] * TotalWeight / 100`. -/
def targetsOf (percents : List ℚ) (total : ℚ) : List ℚ :=
  percents.map (fun x => x * total / 100)

/-- Lines 517–523 of `Weight.calc_premixture` for one premixture row `qRow`
(its per-material content) and one composition row `mRow` (its target
masses): elementwise IEEE division, then the masking
`factor[np.isnan(factor)|(factor==0.)] = 1.`, then `min` over materials. -/
def factorRow (mRow qRow : List ℚ) : FV :=
  fvMinList ((List.zipWith (fun m q => (FV.fin m).div (FV.fin q)) mRow qRow).map
    (fun v => if v.isNan ∨ v = FV.fin 0 then FV.fin 1 else v))

/-- The columns of `premixture.weight_percent` after dropping `Premixture`
and `TotalWeight`: the material contents plus `Solvent = 100 - sum`. -/
def premixPcols (qRow : List ℚ) : List ℚ := qRow ++ [100 - qRow.sum]

/-- `composition_data[premixture_names] * factor * premixture` (lines
531–535) for one (premixture, composition) pair: the premixture-supplied
quantity in every column (materials and `Solvent`). -/
def premixTCols (b : Bool) (mRow qRow : List ℚ) : List FV :=
  (premixPcols qRow).map
    (fun p => ((FV.fin (boolQ b)).mul (factorRow mRow qRow)).mul (FV.fin p))

/-- `premixture = _premixture.sum(axis=0)` (line 536): per-column numpy sum
over all premixtures of the supplied quantities, for one composition row. -/
def premixContrib (bools : List Bool) (mRow : List ℚ) (qRows : List (List ℚ)) :
    List FV :=
  (List.zip bools qRows).foldl
    (fun acc bq => List.zipWith FV.add acc (premixTCols bq.1 mRow bq.2))
    (List.replicate (mRow.length + 1) (FV.fin 0))

/-- Lines 538–550: `_premixture / premixture_percent * 100`, then
`_premixture[np.isnan(_premixture)] = 0.`, then `max(axis=2)`: the consumed
fraction (0–100) of one premixture's unit batch for one composition. -/
def fractionOf (b : Bool) (mRow qRow : List ℚ) : FV :=
  fvMaxList (List.zipWith
    (fun tv p => FV.nanToZero ((tv.div (FV.fin p)).mul (FV.fin 100)))
    (premixTCols b mRow qRow) (premixPcols qRow))

/-- `Weight.update_data` (lines 448–500) for one composition row.  `w` is
the stock `wt%` of each material, `anySel` is the table-level test
`composition_data[premixture_names].to_numpy().any()`, `qRows` the
premixture table's material columns by row.  The `Solvent` column of the
divided frame is `NaN` (the divisor `Series` has no `Solvent` label) and is
then overwritten with `lack.sum(axis=1) - data.sum(axis=1)` (both pandas
sums skip `NaN`); everything except the premixture fractions is rounded. -/
def weightUpdateRow (d : ℕ) (w : List ℚ) (anySel : Bool) (qRows : List (List ℚ))
    (r : CompRow) : WRow :=
  let targets := targetsOf r.percents r.total
  let solvent0 : ℚ := r.total - targets.sum
  let contrib : List FV :=
    if anySel then premixContrib r.bools targets qRows
    else List.replicate (targets.length + 1) (FV.fin 0)
  let lack : List FV :=
    List.zipWith FV.sub (targets.map FV.fin ++ [FV.fin solvent0]) contrib
  let corrected : List FV :=
    (List.zipWith (fun x wi => (x.div (FV.fin wi)).mul (FV.fin 100)) lack w)
      ++ [FV.nan]
  let solventFinal : FV := (pdSum lack).sub (pdSum corrected)
  { name := r.name
    mats := (corrected.take targets.length).map (FV.round d)
    pres :=
      if anySel then
        (List.zip r.bools qRows).map (fun bq => fractionOf bq.1 targets bq.2)
      else List.replicate qRows.length FV.nan
    solvent := FV.round d solventFinal }

/-- `Weight.update_data` over the whole composition table; the premixture
branch is chosen once, by `composition_data[premixture_names].any()`. -/
def weightUpdateTable (d : ℕ) (w : List ℚ) (qRows : List (List ℚ))
    (rows : List CompRow) : List WRow :=
  let anySel := rows.any (fun r => r.bools.any id)
  rows.map (weightUpdateRow d w anySel qRows)

/-! ## Result / ResultPreMixture (`logic.py` lines 696–808) -/

/-- `ResultPreMixture.calc` for one `WorkPreMixture` row: `total` is the
pandas (skip-`NaN`) sum over all columns (materials and `Solvent`), the
output is `work[material] * stock_wt% / total` per material. -/
def resultPMRow (wt : List ℚ) (matCells : List FV) (solvCell : FV) : List FV :=
  let total := pdSum (matCells ++ [solvCell])
  List.zipWith (fun c wv => (c.mul (FV.fin wv)).div total) matCells wt

/-- `Result.calc` (lines 783–808) for one `Work` row.  `total` sums every
column; the premixture contribution multiplies each premixture's measured
cell with `ResultPreMixture`'s row for it, replaces `NaN` products by zero
and numpy-sums over premixtures; the direct contribution is
`work[material] * stock_wt%` with `.fillna(0.)`; the output is their sum
divided by `total`. -/
def resultRow (wt : List ℚ) (matCells pmCells : List FV) (solvCell : FV)
    (resPM : List (List FV)) : List FV :=
  let total := pdSum (matCells ++ pmCells ++ [solvCell])
  let contrib := (List.zip pmCells resPM).foldl
    (fun acc br =>
      List.zipWith FV.add acc (br.2.map (fun x => FV.nanToZero (br.1.mul x))))
    (List.replicate wt.length (FV.fin 0))
  let direct :=
    List.zipWith (fun c wv => FV.nanToZero (c.mul (FV.fin wv))) matCells wt
  List.zipWith (fun a b => (a.add b).div total) contrib direct

/-! ## Statement apparatus -/

/-- Modelled from the spec (§4.4, wording of claim C3), for comparison with
`factorRow`: the minimum over the premixture's materials of
(required shortfall ÷ per-unit content), where a ratio that is zero or
undefined (NaN, division by zero) is treated as non-limiting — effectively
infinite, i.e. excluded from the minimum. -/
def specLimitingMin (mRow qRow : List ℚ) : FV :=
  fvMinList (List.zipWith
    (fun m q => if q = 0 ∨ m = 0 then FV.pinf else FV.fin (m / q)) mRow qRow)

/-- One premixture as seen by one composition row, for stating the
round-trip claim: its selection boolean `b`, its material contents `q`,
the finite value `f` of its limiting factor for this composition, and the
row `r` of `ResultPreMixture` for it. -/
structure PMSpec where
  b : Bool
  q : List ℚ
  f : ℚ
  r : List ℚ
  deriving DecidableEq, Repr

/-- The exact (pre-rounding) premixture-supplied quantity per column
(materials and `Solvent`) for one composition row, when every limiting
factor is the finite `x.f`: what `premixContrib` computes (proved in
`premixContrib_eq_map_fin`). -/
def contribColsQ (n : ℕ) (pms : List PMSpec) : List ℚ :=
  pms.foldl
    (fun acc x =>
      List.zipWith (fun a b => a + b) acc
        ((premixPcols x.q).map (fun p => boolQ x.b * x.f * p)))
    (List.replicate (n + 1) 0)

/-- The summed consumed fractions (as fractions of 1, not percent) of the
selected premixtures for one composition row. -/
def fracSumOf (pms : List PMSpec) : ℚ :=
  (pms.map (fun x => boolQ x.b * x.f)).sum

/-- The exact (pre-rounding) stock mass of each material in a `Weight`
row: `(target - premixture-supplied) / stock_wt% * 100`. -/
def cValsOf (w p : List ℚ) (T : ℚ) (pms : List PMSpec) : List ℚ :=
  List.zipWith (fun x wi => x / wi * 100)
    (List.zipWith (fun t a => t - a) (targetsOf p T) (contribColsQ p.length pms)) w

/-- The premixture-sourced contribution per material inside `Result.calc`,
on fully measured data: the numpy sum over premixtures of
(measured premixture cell × `ResultPreMixture` row). -/
def contribResQ (n : ℕ) (gQ : List ℚ) (rsQ : List (List ℚ)) : List ℚ :=
  (gQ.zip rsQ).foldl
    (fun acc gr => List.zipWith (fun a b => a + b) acc (gr.2.map (fun x => gr.1 * x)))
    (List.replicate n 0)

/-- The exact (pre-rounding) `Solvent` cell of a `Weight` row. -/
def sValOf (w p : List ℚ) (T : ℚ) (pms : List PMSpec) : ℚ :=
  (T - 100 * fracSumOf pms) - (cValsOf w p T pms).sum

/-- The worked example of the spec (§8): stock concentrations of the three
materials. -/
def exampleStock : List ℚ := [100, 50, 1]

/-- The worked example of the spec (§8): composition row "Composition 2"
with no premixture selected. -/
def exampleRow : CompRow :=
  { name := "Composition 2", percents := [10, 10, 0], bools := [], total := 200 }

/-! # Lemmas -/

theorem abs_roundTo_sub_le (d : ℕ) (x : ℚ) :
    |roundTo d x - x| ≤ 1 / 2 / 10 ^ d := by
  have h10 : (0:ℚ) < 10 ^ d := by positivity
  have h : |(round (x * 10 ^ d) : ℚ) - x * 10 ^ d| ≤ 1 / 2 := by
    rw [abs_sub_comm]; exact abs_sub_round (α := ℚ) (x * 10 ^ d)
  have hx : roundTo d x - x = ((round (x * 10 ^ d) : ℚ) - x * 10 ^ d) / 10 ^ d := by
    field_simp [roundTo]; ring
  rw [hx, abs_div, abs_of_pos h10]
  exact (div_le_div_iff_of_pos_right h10).mpr h

/-- Total rounding error of a list: rounding every entry moves the sum by
at most `n/2 * 10^-d`. -/
theorem abs_sum_map_roundTo_sub_le (d : ℕ) (l : List ℚ) :
    |(l.map (roundTo d)).sum - l.sum| ≤ l.length * (1 / 2 / 10 ^ d) := by
  induction l with
  | nil => simp
  | cons x t ih =>
      have h1 := abs_roundTo_sub_le d x
      have hsplit : (roundTo d x + (t.map (roundTo d)).sum) - (x + t.sum)
          = (roundTo d x - x) + ((t.map (roundTo d)).sum - t.sum) := by ring
      simp only [List.map_cons, List.sum_cons, List.length_cons]
      rw [hsplit]
      calc |(roundTo d x - x) + ((t.map (roundTo d)).sum - t.sum)|
          ≤ |roundTo d x - x| + |(t.map (roundTo d)).sum - t.sum| := abs_add _ _
        _ ≤ 1 / 2 / 10 ^ d + t.length * (1 / 2 / 10 ^ d) := add_le_add h1 ih
        _ = ((t.length + 1 : ℕ) : ℚ) * (1 / 2 / 10 ^ d) := by push_cast; ring

namespace FV

@[simp] theorem add_fin_fin (a b : ℚ) : (fin a).add (fin b) = fin (a + b) := rfl

@[simp] theorem mul_fin_fin (a b : ℚ) : (fin a).mul (fin b) = fin (a * b) := rfl

@[simp] theorem neg_fin (a : ℚ) : (fin a).neg = fin (-a) := rfl

@[simp] theorem sub_fin_fin (a b : ℚ) : (fin a).sub (fin b) = fin (a - b) := by
  simp [sub, add, neg]; ring

theorem div_fin_fin (a b : ℚ) (hb : b ≠ 0) :
    (fin a).div (fin b) = fin (a / b) := by
  simp [div, hb]

@[simp] theorem sub_zero (v : FV) : v.sub (fin 0) = v := by
  cases v <;> simp [sub, add, neg]

@[simp] theorem nanToZero_fin (a : ℚ) : nanToZero (fin a) = fin a := by
  simp [nanToZero]

@[simp] theorem round_fin (d : ℕ) (a : ℚ) : (fin a).round d = fin (roundTo d a) :=
  rfl

@[simp] theorem isNan_fin (a : ℚ) : (fin a).isNan = false := rfl

@[simp] theorem val_fin (a : ℚ) : (fin a).val = a := rfl

@[simp] theorem isFin_fin (a : ℚ) : (fin a).isFin = true := rfl

end FV

@[simp] theorem pdSum_map_fin (l : List ℚ) :
    pdSum (l.map FV.fin) = FV.fin l.sum := by
  induction l with
  | nil => simp [pdSum]
  | cons x t ih =>
      simp only [pdSum, List.map_cons, List.filter_cons] at ih ⊢
      simp_all [FV.isNan]

theorem pdSum_map_fin_append_nan (l : List ℚ) :
    pdSum (l.map FV.fin ++ [FV.nan]) = FV.fin l.sum := by
  have h : (l.map FV.fin ++ [FV.nan]).filter (fun v => !v.isNan)
      = (l.map FV.fin).filter (fun v => !v.isNan) := by
    simp [List.filter_append, FV.isNan]
  simp only [pdSum, h]
  have := pdSum_map_fin l
  simpa [pdSum] using this

theorem zipWith_eq_map_zip {α β γ : Type} (f : α → β → γ) :
    ∀ (l1 : List α) (l2 : List β),
      List.zipWith f l1 l2 = (l1.zip l2).map (fun p => f p.1 p.2)
  | [], _ => by simp
  | _ :: _, [] => by simp
  | a :: t1, b :: t2 => by
      simp [List.zipWith_cons_cons, zipWith_eq_map_zip f t1 t2]

theorem fvMin_fin_fin (a b : ℚ) :
    FV.fvMin (FV.fin a) (FV.fin b) = FV.fin (min a b) := rfl

theorem fvMin_fin_pinf (a : ℚ) : FV.fvMin (FV.fin a) FV.pinf = FV.fin a := rfl

theorem fvMin_pinf_left (v : FV) (h : v ≠ FV.nan) :
    FV.fvMin FV.pinf v = v := by
  cases v <;> simp_all [FV.fvMin]

theorem fin_ne_nan (a : ℚ) : FV.fin a ≠ FV.nan := fun h => FV.noConfusion h

/-- If every entry of a list is `+inf` or a finite value at least `r`, so
is its `min`-fold. -/
theorem fvMinList_all_ge (r : ℚ) (l : List FV)
    (h : ∀ v ∈ l, v = FV.pinf ∨ ∃ x, v = FV.fin x ∧ r ≤ x) :
    fvMinList l = FV.pinf ∨ ∃ x, fvMinList l = FV.fin x ∧ r ≤ x := by
  induction l with
  | nil => left; rfl
  | cons v tl ih =>
      have htl := ih (fun u hu => h u (List.mem_cons_of_mem v hu))
      have hv := h v (List.mem_cons_self v tl)
      simp only [fvMinList, List.foldr_cons] at htl ⊢
      rcases hv with hv | ⟨x, hv, hx⟩ <;> subst hv <;>
        rcases htl with htl | ⟨y, htl, hy⟩ <;> rw [htl]
      · left; rfl
      · right; exact ⟨y, fvMin_pinf_left _ (fin_ne_nan y), hy⟩
      · right; exact ⟨x, fvMin_fin_pinf x, hx⟩
      · right; exact ⟨min x y, fvMin_fin_fin x y, le_min hx hy⟩

theorem fvMax_fin_fin (a b : ℚ) :
    FV.fvMax (FV.fin a) (FV.fin b) = FV.fin (max a b) := rfl

theorem fvMax_fin_ninf (a : ℚ) : FV.fvMax (FV.fin a) FV.ninf = FV.fin a := rfl

/-- The `max`-fold of a list of zeros is the fold identity or zero. -/
theorem fvMaxList_all_zero (l : List FV) (h : ∀ u ∈ l, u = FV.fin 0) :
    fvMaxList l = FV.ninf ∨ fvMaxList l = FV.fin 0 := by
  induction l with
  | nil => left; rfl
  | cons v tl ih =>
      have hv := h v (List.mem_cons_self v tl)
      subst hv
      simp only [fvMaxList, List.foldr_cons]
      rcases ih (fun u hu => h u (List.mem_cons_of_mem _ hu)) with htl | htl <;>
        simp only [fvMaxList] at htl <;> rw [htl]
      · right; exact fvMax_fin_ninf 0
      · right; rw [fvMax_fin_fin, max_self]

/-- If every entry of the list is `FV.fin M` or `FV.fin 0`, with
`FV.fin M` present and `0 ≤ M`, the `max`-fold is `FV.fin M`. -/
theorem fvMaxList_eq_of_mem (M : ℚ) (l : List FV)
    (hmem : FV.fin M ∈ l)
    (h : ∀ v ∈ l, v = FV.fin M ∨ v = FV.fin 0)
    (hM : 0 ≤ M) :
    fvMaxList l = FV.fin M := by
  induction l with
  | nil => cases hmem
  | cons v tl ih =>
      have htlall := fun u hu => h u (List.mem_cons_of_mem v hu)
      simp only [fvMaxList, List.foldr_cons]
      by_cases hin : FV.fin M ∈ tl
      · have htl : fvMaxList tl = FV.fin M := ih hin htlall
        simp only [fvMaxList] at htl
        rw [htl]
        rcases h v (List.mem_cons_self v tl) with hv | hv <;> rw [hv, fvMax_fin_fin]
        · rw [max_self]
        · rw [max_eq_right hM]
      · have hv : v = FV.fin M := by
          rcases List.mem_cons.mp hmem with h1 | h1
          · exact h1.symm
          · exact absurd h1 hin
        subst hv
        have hzl : ∀ u ∈ tl, u = FV.fin 0 := by
          intro u hu
          rcases htlall u hu with h1 | h1
          · exact absurd (h1 ▸ hu) hin
          · exact h1
        rcases fvMaxList_all_zero tl hzl with htl | htl <;>
          simp only [fvMaxList] at htl <;> rw [htl]
        · exact fvMax_fin_ninf M
        · rw [fvMax_fin_fin, max_eq_left hM]

/-- If some entry is exactly `FV.fin r` and every entry is `+inf` or a
finite value at least `r`, the `min`-fold is `FV.fin r`. -/
theorem fvMinList_eq_of_mem (r : ℚ) (l : List FV)
    (hmem : FV.fin r ∈ l)
    (h : ∀ v ∈ l, v = FV.pinf ∨ ∃ x, v = FV.fin x ∧ r ≤ x) :
    fvMinList l = FV.fin r := by
  induction l with
  | nil => cases hmem
  | cons v tl ih =>
      have htlall := fun u hu => h u (List.mem_cons_of_mem v hu)
      simp only [fvMinList, List.foldr_cons]
      by_cases hin : FV.fin r ∈ tl
      · have htl : fvMinList tl = FV.fin r := ih hin htlall
        simp only [fvMinList] at htl
        rw [htl]
        rcases h v (List.mem_cons_self v tl) with hv | ⟨x, hv, hx⟩
        · rw [hv]; exact fvMin_pinf_left _ (by simp)
        · rw [hv, fvMin_fin_fin, min_eq_right hx]
      · have hv : v = FV.fin r := by
          rcases List.mem_cons.mp hmem with h1 | h1
          · exact h1.symm
          · exact absurd h1 hin
        subst hv
        rcases fvMinList_all_ge r tl htlall with htl | ⟨y, htl, hy⟩ <;>
          simp only [fvMinList] at htl <;> rw [htl]
        · exact fvMin_fin_pinf r
        · rw [fvMin_fin_fin, min_eq_left hy]

/-! # Claim theorems -/

/-- Claim C8: the claim says `mM` unit mode yields a column set containing
`g/mol` (the spec: "the latter requires a `g/mol` column") and that an
unrecognized unit mode fails with a configuration error.  The second half
holds, but the code tests `unit == 'M'` — never true after the assert — so
with the default columns the `mM` table has no `g/mol` column even though
`SourceMaterial.weight_percent` in `mM` mode reads `data['g/mol']`: a code
bug (a typo for `'mM'`). -/
theorem C8_make_column_mM_gmol :
    make_column none (some "mM") = Except.ok ["Material", "Lot", "wt%", "mM"]
    ∧ "g/mol" ∉ ["Material", "Lot", "wt%", "mM"]
    ∧ make_column none (some "mol/L")
        = Except.error "AssertionError: unit must be wt% or mM" := by
  refine ⟨rfl, by decide, rfl⟩

/-- Claim C7: in `mM` unit mode, `SourceMaterial.weight_percent` assigns
each row `wt% = (mM * g/mol / 1000) / (mM * g/mol / 1000 + 1000) * 100`
(the fixed 1000 mL solvent basis) and leaves the other columns unchanged. -/
theorem C7_mM_weight_percent (r : SMRow)
    (h : r.mm * r.gmol / 1000 + 1000 ≠ 0) :
    (sm_weight_percent_mM r).wt
        = FV.fin (r.mm * r.gmol / 1000 / (r.mm * r.gmol / 1000 + 1000) * 100)
    ∧ (sm_weight_percent_mM r).material = r.material
    ∧ (sm_weight_percent_mM r).lot = r.lot
    ∧ (sm_weight_percent_mM r).mm = r.mm
    ∧ (sm_weight_percent_mM r).gmol = r.gmol := by
  refine ⟨?_, rfl, rfl, rfl, rfl⟩
  rw [sm_weight_percent_mM]
  simp only [FV.div_fin_fin _ _ h, FV.mul_fin_fin]

theorem C7_mM_weight_percent_witness :
    (sm_weight_percent_mM ⟨"Material A", none, FV.nan, 100, 180⟩).wt
        = FV.fin ((100:ℚ) * 180 / 1000 / (100 * 180 / 1000 + 1000) * 100)
    ∧ (sm_weight_percent_mM ⟨"Material A", none, FV.nan, 100, 180⟩).material
        = "Material A"
    ∧ (sm_weight_percent_mM ⟨"Material A", none, FV.nan, 100, 180⟩).lot = none
    ∧ (sm_weight_percent_mM ⟨"Material A", none, FV.nan, 100, 180⟩).mm = 100
    ∧ (sm_weight_percent_mM ⟨"Material A", none, FV.nan, 100, 180⟩).gmol = 180 :=
  C7_mM_weight_percent ⟨"Material A", none, FV.nan, 100, 180⟩ (by norm_num)

/-- The limiting factor of `Weight.calc_premixture` for one premixture and
one composition: when entry `k` is a genuine ratio, at most 1 and at most
every other genuine ratio, and no requirement is negative where the
content is zero, the factor equals entry `k`'s ratio (the sentinel `1.0`
entries and any `+inf` entries do not limit). -/
theorem factorRow_eq_genuine_min (mRow qRow : List ℚ) (k : ℕ)
    (hk : k < mRow.length) (hkq : k < qRow.length)
    (hm : mRow.get ⟨k, hk⟩ ≠ 0) (hq : qRow.get ⟨k, hkq⟩ ≠ 0)
    (hr1 : mRow.get ⟨k, hk⟩ / qRow.get ⟨k, hkq⟩ ≤ 1)
    (hq0 : ∀ mq ∈ mRow.zip qRow, mq.2 = 0 → 0 ≤ mq.1)
    (hmin : ∀ mq ∈ mRow.zip qRow, mq.2 ≠ 0 → mq.1 ≠ 0 →
      mRow.get ⟨k, hk⟩ / qRow.get ⟨k, hkq⟩ ≤ mq.1 / mq.2) :
    factorRow mRow qRow
      = FV.fin (mRow.get ⟨k, hk⟩ / qRow.get ⟨k, hkq⟩) := by
  have hrne : mRow.get ⟨k, hk⟩ / qRow.get ⟨k, hkq⟩ ≠ 0 := div_ne_zero hm hq
  rw [factorRow, zipWith_eq_map_zip, List.map_map]
  refine fvMinList_eq_of_mem _ _ ?_ ?_
  · have hkz : k < (mRow.zip qRow).length := by
      rw [List.length_zip]; omega
    refine List.mem_map.mpr
      ⟨(mRow.get ⟨k, hk⟩, qRow.get ⟨k, hkq⟩), ?_, ?_⟩
    · have hz : (mRow.zip qRow).get ⟨k, hkz⟩
          = (mRow.get ⟨k, hk⟩, qRow.get ⟨k, hkq⟩) := by
        simp [List.get_eq_getElem, List.getElem_zip]
      exact hz ▸ List.get_mem _ _ _
    · simp only [Function.comp_apply]
      rw [FV.div_fin_fin _ _ hq]
      rw [if_neg]
      rintro (h1 | h1)
      · exact absurd h1 (by simp [FV.isNan])
      · exact hrne (by injection h1)
  · intro v hv
    rcases List.mem_map.mp hv with ⟨mq, hmq, hv1⟩
    subst hv1
    simp only [Function.comp_apply]
    by_cases hq2 : mq.2 = 0
    · by_cases hm2 : mq.1 = 0
      · right; exact ⟨1, by simp [FV.div, hq2, hm2, FV.isNan], hr1⟩
      · have hpos : 0 < mq.1 := lt_of_le_of_ne (hq0 mq hmq hq2) (Ne.symm hm2)
        left
        simp [FV.div, hq2, hm2, hpos, FV.isNan]
    · by_cases hm2 : mq.1 = 0
      · right; refine ⟨1, ?_, hr1⟩
        rw [FV.div_fin_fin _ _ hq2]
        simp [hm2]
      · right
        refine ⟨mq.1 / mq.2, ?_, hmin mq hmq hq2 hm2⟩
        rw [FV.div_fin_fin _ _ hq2]
        rw [if_neg]
        rintro (h1 | h1)
        · exact absurd h1 (by simp [FV.isNan])
        · exact (div_ne_zero hm2 hq2) (by injection h1)

theorem premixPcols_sum (q : List ℚ) : (premixPcols q).sum = 100 := by
  simp [premixPcols]

theorem exists_mem_ne_zero_of_sum_ne_zero (l : List ℚ) (h : l.sum ≠ 0) :
    ∃ x ∈ l, x ≠ 0 := by
  by_contra hc
  push_neg at hc
  exact h (List.sum_eq_zero hc)

theorem fraction_entries_true (f : ℚ) (l : List ℚ) :
    List.zipWith (fun tv p => FV.nanToZero ((tv.div (FV.fin p)).mul (FV.fin 100)))
      (l.map (fun p => ((FV.fin (boolQ true)).mul (FV.fin f)).mul (FV.fin p))) l
      = l.map (fun p => if p = 0 then FV.fin 0 else FV.fin (100 * f)) := by
  induction l with
  | nil => rfl
  | cons p tl ih =>
      simp only [List.map_cons, List.zipWith_cons_cons, ih]
      congr 1
      by_cases hp : p = 0
      · subst hp
        simp [boolQ, FV.div, FV.mul, FV.nanToZero]
      · rw [if_neg hp]
        simp only [FV.mul_fin_fin, boolQ, if_pos]
        rw [FV.div_fin_fin _ _ hp, FV.mul_fin_fin, FV.nanToZero_fin]
        have hv : 1 * f * p / p * 100 = 100 * f := by
          field_simp
          ring
        rw [hv]

theorem fraction_entries_false (f : ℚ) (l : List ℚ) :
    List.zipWith (fun tv p => FV.nanToZero ((tv.div (FV.fin p)).mul (FV.fin 100)))
      (l.map (fun p => ((FV.fin (boolQ false)).mul (FV.fin f)).mul (FV.fin p))) l
      = l.map (fun _ => FV.fin 0) := by
  induction l with
  | nil => rfl
  | cons p tl ih =>
      simp only [List.map_cons, List.zipWith_cons_cons, ih]
      congr 1
      by_cases hp : p = 0
      · subst hp
        simp [boolQ, FV.div, FV.mul, FV.nanToZero]
      · simp only [FV.mul_fin_fin, boolQ, if_neg]
        rw [FV.div_fin_fin _ _ hp, FV.mul_fin_fin, FV.nanToZero_fin]
        norm_num

/-- The consumed fraction reported for a selected premixture whose
limiting factor is the finite, nonnegative `f` is `100 * f`. -/
theorem fractionOf_true_eq (mRow qRow : List ℚ) (f : ℚ)
    (hf : factorRow mRow qRow = FV.fin f) (hfpos : 0 ≤ f) :
    fractionOf true mRow qRow = FV.fin (100 * f) := by
  rw [fractionOf, premixTCols, hf, fraction_entries_true]
  refine fvMaxList_eq_of_mem _ _ ?_ ?_ (by linarith)
  · obtain ⟨p, hp, hpne⟩ := exists_mem_ne_zero_of_sum_ne_zero (premixPcols qRow)
      (by rw [premixPcols_sum]; norm_num)
    exact List.mem_map.mpr ⟨p, hp, by rw [if_neg hpne]⟩
  · intro v hv
    rcases List.mem_map.mp hv with ⟨p, hp, he⟩
    subst he
    by_cases hp0 : p = 0
    · right; rw [if_pos hp0]
    · left; rw [if_neg hp0]

/-- The consumed fraction reported for an unselected premixture whose
limiting factor is finite is `0` (not `NaN`). -/
theorem fractionOf_false_eq (mRow qRow : List ℚ) (f : ℚ)
    (hf : factorRow mRow qRow = FV.fin f) :
    fractionOf false mRow qRow = FV.fin 0 := by
  rw [fractionOf, premixTCols, hf, fraction_entries_false]
  refine fvMaxList_eq_of_mem _ _ ?_ ?_ le_rfl
  · have hp : (100 - qRow.sum) ∈ premixPcols qRow := by
      simp [premixPcols]
    exact List.mem_map.mpr ⟨100 - qRow.sum, hp, rfl⟩
  · intro v hv
    rcases List.mem_map.mp hv with ⟨p, _, he⟩
    subst he
    left; rfl

/-- Claim C3 counterexample: with one premixture supplying materials at
per-unit contents `[1, 10]` and one composition requiring `[0, 30]`, the
code's limiting factor is `1` (the zero ratio `0/1` is replaced by the
sentinel `1.0`, which then IS the minimum), while the claimed rule — zero
and undefined ratios excluded from the minimum — gives `30/10 = 3`. -/
theorem C3_counterexample :
    factorRow [0, 30] [1, 10] = FV.fin 1
    ∧ specLimitingMin [0, 30] [1, 10] = FV.fin 3
    ∧ FV.fin (1:ℚ) ≠ FV.fin 3 := by
  refine ⟨?_, ?_, by simp⟩
  · norm_num [factorRow, fvMinList, FV.div, FV.fvMin, FV.isNan, min_def]
  · norm_num [specLimitingMin, fvMinList, FV.fvMin, min_def]

/-- Claim C3 as amended: `Weight.calc_premixture` computes the limiting
ratio as the minimum over the premixture's materials of
(required mass ÷ per-unit content) after replacing each `NaN` (0÷0) or
zero ratio by the sentinel `1.0` — not by infinity — so such a ratio is
non-limiting only when the genuine minimum is at most 1, while a positive
requirement over zero content yields `+inf` and never limits; no error is
raised.  Stated: whenever entry `k` is a genuine ratio that is at most 1
and at most every other genuine ratio, and no requirement is negative
where content is zero, the factor equals entry `k`'s ratio. -/
theorem C3_factor_sentinel (mRow qRow : List ℚ) (k : ℕ)
    (hk : k < mRow.length) (hkq : k < qRow.length)
    (hm : mRow.get ⟨k, hk⟩ ≠ 0) (hq : qRow.get ⟨k, hkq⟩ ≠ 0)
    (hr1 : mRow.get ⟨k, hk⟩ / qRow.get ⟨k, hkq⟩ ≤ 1)
    (hq0 : ∀ mq ∈ mRow.zip qRow, mq.2 = 0 → 0 ≤ mq.1)
    (hmin : ∀ mq ∈ mRow.zip qRow, mq.2 ≠ 0 → mq.1 ≠ 0 →
      mRow.get ⟨k, hk⟩ / qRow.get ⟨k, hkq⟩ ≤ mq.1 / mq.2) :
    factorRow mRow qRow
      = FV.fin (mRow.get ⟨k, hk⟩ / qRow.get ⟨k, hkq⟩) :=
  factorRow_eq_genuine_min mRow qRow k hk hkq hm hq hr1 hq0 hmin

theorem C3_factor_sentinel_witness :
    factorRow [0, 3] [1, 10] = FV.fin ((3:ℚ) / 10) := by
  have h := C3_factor_sentinel [0, 3] [1, 10] 1 (by norm_num) (by norm_num)
    (by norm_num [List.get]) (by norm_num [List.get]) (by norm_num [List.get])
    (by intro mq hmq h2; fin_cases hmq <;> norm_num)
    (by
      intro mq hmq h2 h1
      fin_cases hmq
      · simp at h1
      · norm_num [List.get])
  exact h.trans (by norm_num [List.get])

theorem zipWith_sub_replicate_zero (l : List FV) :
    List.zipWith FV.sub l (List.replicate l.length (FV.fin 0)) = l := by
  induction l with
  | nil => rfl
  | cons v tl ih => simp only [List.length_cons, List.replicate_succ,
      List.zipWith_cons_cons, FV.sub_zero, ih]

theorem zipWith_div100_map_fin :
    ∀ (ts ws : List ℚ), (∀ x ∈ ws, x ≠ 0) →
      List.zipWith (fun x wi => (FV.div x (FV.fin wi)).mul (FV.fin 100))
        (ts.map FV.fin) ws
      = (List.zipWith (fun t wi => t / wi * 100) ts ws).map FV.fin
  | [], _, _ => by simp
  | _ :: _, [], _ => by simp
  | t :: ts, wi :: ws, h => by
      have hwi : wi ≠ 0 := h wi (List.mem_cons_self wi ws)
      simp only [List.map_cons, List.zipWith_cons_cons,
        FV.div_fin_fin _ _ hwi, FV.mul_fin_fin]
      rw [zipWith_div100_map_fin ts ws (fun x hx => h x (List.mem_cons_of_mem wi hx))]

/-- Evaluation of `Weight.update_data` on one composition row when no
premixture is selected anywhere: the material cells are the rounded
`target / stock_wt% * 100`, the premixture cells are all `NaN`, and
`Solvent` is the rounded residual `total - sum(material cells)`. -/
theorem weightUpdateRow_noSel (d : ℕ) (w : List ℚ) (qRows : List (List ℚ))
    (r : CompRow) (hlen : r.percents.length = w.length)
    (hw : ∀ x ∈ w, x ≠ 0) :
    (weightUpdateRow d w false qRows r).name = r.name
    ∧ (weightUpdateRow d w false qRows r).mats
        = (List.zipWith (fun t wi => t / wi * 100) (targetsOf r.percents r.total) w).map
            (fun c => FV.fin (roundTo d c))
    ∧ (weightUpdateRow d w false qRows r).pres = List.replicate qRows.length FV.nan
    ∧ (weightUpdateRow d w false qRows r).solvent
        = FV.fin (roundTo d (r.total
            - (List.zipWith (fun t wi => t / wi * 100) (targetsOf r.percents r.total) w).sum)) := by
  have hlt : (targetsOf r.percents r.total).length = w.length := by
    rw [targetsOf, List.length_map, hlen]
  have hlack : List.zipWith FV.sub
        ((targetsOf r.percents r.total).map FV.fin
          ++ [FV.fin (r.total - (targetsOf r.percents r.total).sum)])
        (List.replicate ((targetsOf r.percents r.total).length + 1) (FV.fin 0))
      = (targetsOf r.percents r.total).map FV.fin
          ++ [FV.fin (r.total - (targetsOf r.percents r.total).sum)] := by
    have hl : ((targetsOf r.percents r.total).map FV.fin
        ++ [FV.fin (r.total - (targetsOf r.percents r.total).sum)]).length
        = (targetsOf r.percents r.total).length + 1 := by
      simp
    rw [← hl, zipWith_sub_replicate_zero]
  have hcorr : List.zipWith (fun x wi => (FV.div x (FV.fin wi)).mul (FV.fin 100))
        ((targetsOf r.percents r.total).map FV.fin
          ++ [FV.fin (r.total - (targetsOf r.percents r.total).sum)]) w
      = (List.zipWith (fun t wi => t / wi * 100) (targetsOf r.percents r.total) w).map
          FV.fin := by
    have hsplit : List.zipWith (fun x wi => (FV.div x (FV.fin wi)).mul (FV.fin 100))
          ((targetsOf r.percents r.total).map FV.fin
            ++ [FV.fin (r.total - (targetsOf r.percents r.total).sum)]) (w ++ []) =
        List.zipWith (fun x wi => (FV.div x (FV.fin wi)).mul (FV.fin 100))
          ((targetsOf r.percents r.total).map FV.fin) w
          ++ List.zipWith (fun x wi => (FV.div x (FV.fin wi)).mul (FV.fin 100))
            [FV.fin (r.total - (targetsOf r.percents r.total).sum)] [] := by
      refine List.zipWith_append _ _ _ _ _ ?_
      rw [List.length_map, hlt]
    rw [List.append_nil] at hsplit
    rw [hsplit, zipWith_div100_map_fin _ _ hw]
    simp
  refine ⟨rfl, ?_, ?_, ?_⟩
  · rw [weightUpdateRow]
    simp only [if_neg (by simp : ¬ (false = true))]
    rw [hlack, hcorr]
    have hlc : ((List.zipWith (fun t wi => t / wi * 100)
        (targetsOf r.percents r.total) w).map FV.fin).length
        = (targetsOf r.percents r.total).length := by
      rw [List.length_map, List.length_zipWith, hlt, min_self]
    rw [List.take_append_of_le_length (le_of_eq hlc.symm)]
    rw [← hlc, List.take_length, List.map_map]
    rfl
  · rw [weightUpdateRow]
    simp only [if_neg (by simp : ¬ (false = true))]
  · rw [weightUpdateRow]
    simp only [if_neg (by simp : ¬ (false = true))]
    rw [hlack, hcorr]
    rw [pdSum_map_fin_append_nan]
    have hfin : ((targetsOf r.percents r.total).map FV.fin
        ++ [FV.fin (r.total - (targetsOf r.percents r.total).sum)])
        = ((targetsOf r.percents r.total)
            ++ [r.total - (targetsOf r.percents r.total).sum]).map FV.fin := by
      simp
    rw [hfin, pdSum_map_fin]
    have hsum : ((targetsOf r.percents r.total)
        ++ [r.total - (targetsOf r.percents r.total).sum]).sum = r.total := by
      simp
    rw [hsum, FV.sub_fin_fin, FV.round_fin]

theorem mem_zip_map {α β : Type} (f : α → β) (l : List α) (pr : α × β)
    (h : pr ∈ l.zip (l.map f)) : pr.1 ∈ l ∧ pr.2 = f pr.1 := by
  induction l with
  | nil => cases h
  | cons a tl ih =>
      rcases List.mem_cons.mp h with h1 | h1
      · rw [h1]
        exact ⟨List.mem_cons_self a tl, rfl⟩
      · rcases ih h1 with ⟨hm, he⟩
        exact ⟨List.mem_cons_of_mem a hm, he⟩

/-- When every premixture boolean of the composition table is `False`, the
branch test `composition_data[premixture_names].to_numpy().any()` is
false and `Weight.update_data` takes the `premixture = 0.` /
`_premixture = None` branch for every row. -/
theorem weightUpdateTable_noSel (d : ℕ) (w : List ℚ) (qRows : List (List ℚ))
    (rows : List CompRow) (hb : ∀ r ∈ rows, ∀ b ∈ r.bools, b = false) :
    weightUpdateTable d w qRows rows
      = rows.map (weightUpdateRow d w false qRows) := by
  have hsel : rows.any (fun r => r.bools.any id) = false := by
    rw [List.any_eq_false]
    intro r hr
    rw [Bool.not_eq_true, List.any_eq_false]
    intro b hbm
    simpa using hb r hr b hbm
  rw [weightUpdateTable, hsel]

theorem FV.zero_add_fv (x : FV) : (FV.fin 0).add x = x := by
  cases x <;> simp [FV.add]

/-- A `NaN` summand of a pandas (skip-`NaN`) sum can be replaced by a
literal zero without changing the sum. -/
theorem pdSum_congr_nan_zero (a b : List FV) :
    pdSum (a ++ FV.nan :: b) = pdSum (a ++ FV.fin 0 :: b) := by
  simp only [pdSum, List.filter_append, List.filter_cons]
  have h1 : (!FV.nan.isNan) = false := rfl
  have h2 : (!(FV.fin 0).isNan) = true := rfl
  rw [h1, h2]
  simp only [Bool.false_eq_true, if_false, if_true]
  rw [List.foldr_append, List.foldr_append, List.foldr_cons, FV.zero_add_fv]

/-- An unset measured material cell contributes to `Result` exactly as a
zero cell does. -/
theorem result_direct_congr_nan_zero (wt : List ℚ) :
    ∀ (l1 l2 : List FV),
      List.zipWith (fun c wv => FV.nanToZero (c.mul (FV.fin wv)))
        (l1 ++ FV.nan :: l2) wt
      = List.zipWith (fun c wv => FV.nanToZero (c.mul (FV.fin wv)))
        (l1 ++ FV.fin 0 :: l2) wt := by
  intro l1
  induction l1 generalizing wt with
  | nil =>
      intro l2
      cases wt with
      | nil => rfl
      | cons wv wt' =>
          simp only [List.nil_append, List.zipWith_cons_cons]
          congr 1
          simp [FV.mul, FV.nanToZero]
  | cons x t ih =>
      intro l2
      cases wt with
      | nil => rfl
      | cons wv wt' =>
          simp only [List.cons_append, List.zipWith_cons_cons]
          rw [ih wt' l2]

theorem zipWith_add_map_fin : ∀ (l1 l2 : List ℚ),
    List.zipWith FV.add (l1.map FV.fin) (l2.map FV.fin)
      = (List.zipWith (fun a b => a + b) l1 l2).map FV.fin
  | [], _ => by simp
  | _ :: _, [] => by simp
  | a :: t1, b :: t2 => by
      simp only [List.map_cons, List.zipWith_cons_cons, FV.add_fin_fin]
      rw [zipWith_add_map_fin t1 t2]

theorem zipWith_sub_map_fin : ∀ (l1 l2 : List ℚ),
    List.zipWith FV.sub (l1.map FV.fin) (l2.map FV.fin)
      = (List.zipWith (fun a b => a - b) l1 l2).map FV.fin
  | [], _ => by simp
  | _ :: _, [] => by simp
  | a :: t1, b :: t2 => by
      simp only [List.map_cons, List.zipWith_cons_cons, FV.sub_fin_fin]
      rw [zipWith_sub_map_fin t1 t2]

theorem sum_map_mul (c : ℚ) : ∀ (l : List ℚ),
    (l.map (fun p => c * p)).sum = c * l.sum
  | [] => by simp
  | a :: t => by
      simp only [List.map_cons, List.sum_cons, sum_map_mul c t]
      ring

theorem sum_zipWith_add : ∀ (l1 l2 : List ℚ), l1.length = l2.length →
    (List.zipWith (fun a b => a + b) l1 l2).sum = l1.sum + l2.sum
  | [], [], _ => by simp
  | [], _ :: _, h => by simp at h
  | _ :: _, [], h => by simp at h
  | a :: t1, b :: t2, h => by
      simp only [List.zipWith_cons_cons, List.sum_cons]
      rw [sum_zipWith_add t1 t2 (by simpa using h)]
      ring

theorem sum_zipWith_sub : ∀ (l1 l2 : List ℚ), l1.length = l2.length →
    (List.zipWith (fun a b => a - b) l1 l2).sum = l1.sum - l2.sum
  | [], [], _ => by simp
  | [], _ :: _, h => by simp at h
  | _ :: _, [], h => by simp at h
  | a :: t1, b :: t2, h => by
      simp only [List.zipWith_cons_cons, List.sum_cons]
      rw [sum_zipWith_sub t1 t2 (by simpa using h)]
      ring

theorem zipWith_replicate_right {α β γ : Type} (f : α → β → γ) (c : β) :
    ∀ (l : List α) (k : ℕ), l.length ≤ k →
      List.zipWith f l (List.replicate k c) = l.map (fun x => f x c)
  | [], _, _ => by simp
  | a :: t, 0, h => by simp at h
  | a :: t, k + 1, h => by
      simp only [List.replicate_succ, List.zipWith_cons_cons, List.map_cons]
      rw [zipWith_replicate_right f c t k (by simpa using h)]

theorem zipWith_replicate_left {α β γ : Type} (f : α → β → γ) (c : α) :
    ∀ (l : List β) (k : ℕ), l.length ≤ k →
      List.zipWith f (List.replicate k c) l = l.map (fun x => f c x)
  | [], _, _ => by simp
  | a :: t, 0, h => by simp at h
  | a :: t, k + 1, h => by
      simp only [List.replicate_succ, List.zipWith_cons_cons, List.map_cons]
      rw [zipWith_replicate_left f c t k (by simpa using h)]

theorem premixTCols_fin (b : Bool) (mRow qRow : List ℚ) (f : ℚ)
    (hf : factorRow mRow qRow = FV.fin f) :
    premixTCols b mRow qRow
      = ((premixPcols qRow).map (fun p => boolQ b * f * p)).map FV.fin := by
  rw [premixTCols, hf, List.map_map]
  rfl

theorem contribColsQ_fold_length (n : ℕ) : ∀ (pms : List PMSpec) (acc : List ℚ),
    acc.length = n + 1 → (∀ x ∈ pms, x.q.length = n) →
    (List.foldl (fun acc x => List.zipWith (fun a b => a + b) acc
      ((premixPcols x.q).map (fun p => boolQ x.b * x.f * p))) acc pms).length = n + 1
  | [], _, h, _ => h
  | x :: t, acc, h, hql => by
      simp only [List.foldl_cons]
      refine contribColsQ_fold_length n t _ ?_
        (fun y hy => hql y (List.mem_cons_of_mem x hy))
      rw [List.length_zipWith, h, List.length_map, premixPcols,
        List.length_append, hql x (List.mem_cons_self x t)]
      simp

theorem contribColsQ_length (n : ℕ) (pms : List PMSpec)
    (hql : ∀ x ∈ pms, x.q.length = n) : (contribColsQ n pms).length = n + 1 :=
  contribColsQ_fold_length n pms _ (by simp) hql

theorem contribColsQ_fold_sum (n : ℕ) : ∀ (pms : List PMSpec) (acc : List ℚ),
    acc.length = n + 1 → (∀ x ∈ pms, x.q.length = n) →
    (List.foldl (fun acc x => List.zipWith (fun a b => a + b) acc
      ((premixPcols x.q).map (fun p => boolQ x.b * x.f * p))) acc pms).sum
      = acc.sum + 100 * fracSumOf pms
  | [], acc, _, _ => by simp [fracSumOf]
  | x :: t, acc, h, hql => by
      have hnl : ((premixPcols x.q).map (fun p => boolQ x.b * x.f * p)).length
          = n + 1 := by
        rw [List.length_map, premixPcols, List.length_append,
          hql x (List.mem_cons_self x t)]
        simp
      have hl2 : (List.zipWith (fun a b => a + b) acc
          ((premixPcols x.q).map (fun p => boolQ x.b * x.f * p))).length = n + 1 := by
        rw [List.length_zipWith, h, hnl, min_self]
      simp only [List.foldl_cons]
      rw [contribColsQ_fold_sum n t _ hl2
        (fun y hy => hql y (List.mem_cons_of_mem x hy))]
      rw [sum_zipWith_add acc _ (by rw [h, hnl])]
      rw [sum_map_mul, premixPcols_sum]
      simp only [fracSumOf, List.map_cons, List.sum_cons]
      ring

theorem contribColsQ_sum (n : ℕ) (pms : List PMSpec)
    (hql : ∀ x ∈ pms, x.q.length = n) :
    (contribColsQ n pms).sum = 100 * fracSumOf pms := by
  rw [contribColsQ, contribColsQ_fold_sum n pms _ (by simp) hql]
  simp

theorem contribColsQ_fold_zero (n : ℕ) : ∀ (pms : List PMSpec) (acc : List ℚ),
    acc.length = n + 1 → (∀ x ∈ pms, x.q.length = n) →
    (∀ x ∈ pms, x.b = false) →
    List.foldl (fun acc x => List.zipWith (fun a b => a + b) acc
      ((premixPcols x.q).map (fun p => boolQ x.b * x.f * p))) acc pms = acc
  | [], _, _, _, _ => rfl
  | x :: t, acc, h, hql, hbf => by
      have hb : x.b = false := hbf x (List.mem_cons_self x t)
      have hz : (premixPcols x.q).map (fun p => boolQ x.b * x.f * p)
          = List.replicate (premixPcols x.q).length 0 := by
        rw [show (fun p => boolQ x.b * x.f * p) = (fun _ : ℚ => (0:ℚ)) by
          funext p
          rw [hb]
          simp [boolQ]]
        exact List.map_const _ 0
      have hlen : acc.length ≤ (premixPcols x.q).length := by
        rw [h, premixPcols, List.length_append, hql x (List.mem_cons_self x t)]
        simp
      have hstep : List.zipWith (fun a b => a + b) acc
          ((premixPcols x.q).map (fun p => boolQ x.b * x.f * p)) = acc := by
        rw [hz, zipWith_replicate_right _ _ acc _ hlen]
        simp
      simp only [List.foldl_cons, hstep]
      exact contribColsQ_fold_zero n t acc h
        (fun y hy => hql y (List.mem_cons_of_mem x hy))
        (fun y hy => hbf y (List.mem_cons_of_mem x hy))

theorem contribColsQ_zero (n : ℕ) (pms : List PMSpec)
    (hql : ∀ x ∈ pms, x.q.length = n) (hbf : ∀ x ∈ pms, x.b = false) :
    contribColsQ n pms = List.replicate (n + 1) 0 := by
  rw [contribColsQ]
  exact contribColsQ_fold_zero n pms _ (by simp) hql hbf

theorem fracSumOf_zero (pms : List PMSpec) (hbf : ∀ x ∈ pms, x.b = false) :
    fracSumOf pms = 0 := by
  rw [fracSumOf]
  apply List.sum_eq_zero
  intro y hy
  rcases List.mem_map.mp hy with ⟨x, hx, he⟩
  rw [← he, hbf x hx]
  simp [boolQ]

theorem contrib_fold (targets : List ℚ) : ∀ (pms : List PMSpec) (accQ : List ℚ),
    (∀ x ∈ pms, factorRow targets x.q = FV.fin x.f) →
    List.foldl (fun acc x => List.zipWith FV.add acc (premixTCols x.b targets x.q))
      (accQ.map FV.fin) pms
    = (List.foldl (fun acc x => List.zipWith (fun a b => a + b) acc
        ((premixPcols x.q).map (fun p => boolQ x.b * x.f * p))) accQ pms).map FV.fin
  | [], _, _ => rfl
  | x :: t, accQ, hfac => by
      simp only [List.foldl_cons]
      rw [premixTCols_fin x.b targets x.q x.f (hfac x (List.mem_cons_self x t))]
      rw [zipWith_add_map_fin]
      exact contrib_fold targets t _ (fun y hy => hfac y (List.mem_cons_of_mem x hy))

/-- On a composition row whose limiting factors are all finite,
`Weight.calc_premixture`'s summed premixture contribution is the finite
vector `contribColsQ`. -/
theorem premixContrib_eq_map_fin (targets : List ℚ) (pms : List PMSpec)
    (hfac : ∀ x ∈ pms, factorRow targets x.q = FV.fin x.f) :
    premixContrib (pms.map PMSpec.b) targets (pms.map PMSpec.q)
      = (contribColsQ targets.length pms).map FV.fin := by
  rw [premixContrib, contribColsQ, List.zip_map', List.foldl_map]
  have hrep : List.replicate (targets.length + 1) (FV.fin 0)
      = (List.replicate (targets.length + 1) (0:ℚ)).map FV.fin := by
    rw [List.map_replicate]
  rw [hrep]
  exact contrib_fold targets pms _ hfac

/-- The reported premixture fractions on such a row: `100 * factor` for a
selected premixture, `0` for an unselected one. -/
theorem pres_eval (targets : List ℚ) (pms : List PMSpec)
    (hfac : ∀ x ∈ pms, factorRow targets x.q = FV.fin x.f)
    (hfnn : ∀ x ∈ pms, x.b = true → 0 ≤ x.f) :
    (List.zip (pms.map PMSpec.b) (pms.map PMSpec.q)).map
        (fun bq => fractionOf bq.1 targets bq.2)
      = pms.map (fun x => FV.fin (boolQ x.b * 100 * x.f)) := by
  rw [List.zip_map', List.map_map]
  refine List.map_congr_left ?_
  intro x hx
  simp only [Function.comp_apply]
  cases hb : x.b with
  | false =>
      rw [fractionOf_false_eq targets x.q x.f (hfac x hx)]
      simp [boolQ]
  | true =>
      rw [fractionOf_true_eq targets x.q x.f (hfac x hx) (hfnn x hx hb)]
      simp [boolQ]

theorem zipWith_trunc_append (g f : ℚ → ℚ → ℚ) : ∀ (l1 : List ℚ) (x : ℚ)
    (A w : List ℚ), l1.length = w.length → w.length ≤ A.length →
    List.zipWith g (List.zipWith f (l1 ++ [x]) A) w
      = List.zipWith g (List.zipWith f l1 A) w
  | [], _, _, [], _, _ => by simp
  | [], _, _, _ :: _, h, _ => by simp at h
  | _ :: _, _, _, [], h, _ => by simp at h
  | _ :: _, _, [], _ :: _, _, hA => by simp at hA
  | a :: l1, x, aa :: A, ww :: w, h, hA => by
      simp only [List.cons_append, List.zipWith_cons_cons]
      rw [zipWith_trunc_append g f l1 x A w (by simpa using h) (by simpa using hA)]

/-- Evaluation of `Weight.update_data` on one composition row when the
premixture branch is taken and every limiting factor is finite: the
material cells are the rounded `cValsOf`, the premixture cells the
fractions `100 * factor` (0 for unselected premixtures), and `Solvent`
the rounded `sValOf`. -/
theorem weightUpdateRow_sel (d : ℕ) (w : List ℚ) (pms : List PMSpec)
    (r : CompRow)
    (hbools : r.bools = pms.map PMSpec.b)
    (hlen : r.percents.length = w.length)
    (hw : ∀ x ∈ w, x ≠ 0)
    (hfac : ∀ x ∈ pms, factorRow (targetsOf r.percents r.total) x.q = FV.fin x.f)
    (hfnn : ∀ x ∈ pms, x.b = true → 0 ≤ x.f)
    (hql : ∀ x ∈ pms, x.q.length = r.percents.length) :
    (weightUpdateRow d w true (pms.map PMSpec.q) r).name = r.name
    ∧ (weightUpdateRow d w true (pms.map PMSpec.q) r).mats
        = (cValsOf w r.percents r.total pms).map (fun c => FV.fin (roundTo d c))
    ∧ (weightUpdateRow d w true (pms.map PMSpec.q) r).pres
        = pms.map (fun x => FV.fin (boolQ x.b * 100 * x.f))
    ∧ (weightUpdateRow d w true (pms.map PMSpec.q) r).solvent
        = FV.fin (roundTo d (sValOf w r.percents r.total pms)) := by
  have htl : (targetsOf r.percents r.total).length = r.percents.length := by
    rw [targetsOf, List.length_map]
  have hql' : ∀ x ∈ pms, x.q.length = (targetsOf r.percents r.total).length := by
    intro x hx
    rw [htl]
    exact hql x hx
  have hA := premixContrib_eq_map_fin (targetsOf r.percents r.total) pms hfac
  have hAlen : (contribColsQ (targetsOf r.percents r.total).length pms).length
      = (targetsOf r.percents r.total).length + 1 := contribColsQ_length _ _ hql'
  have hAeq : contribColsQ (targetsOf r.percents r.total).length pms
      = contribColsQ r.percents.length pms := by rw [htl]
  have hlack : List.zipWith FV.sub
        ((targetsOf r.percents r.total).map FV.fin
          ++ [FV.fin (r.total - (targetsOf r.percents r.total).sum)])
        ((contribColsQ (targetsOf r.percents r.total).length pms).map FV.fin)
      = (List.zipWith (fun t a => t - a)
          ((targetsOf r.percents r.total)
            ++ [r.total - (targetsOf r.percents r.total).sum])
          (contribColsQ (targetsOf r.percents r.total).length pms)).map FV.fin := by
    rw [show (targetsOf r.percents r.total).map FV.fin
        ++ [FV.fin (r.total - (targetsOf r.percents r.total).sum)]
        = ((targetsOf r.percents r.total)
            ++ [r.total - (targetsOf r.percents r.total).sum]).map FV.fin by simp]
    exact zipWith_sub_map_fin _ _
  have hcorr : List.zipWith (fun x wi => (FV.div x (FV.fin wi)).mul (FV.fin 100))
        ((List.zipWith (fun t a => t - a)
          ((targetsOf r.percents r.total)
            ++ [r.total - (targetsOf r.percents r.total).sum])
          (contribColsQ (targetsOf r.percents r.total).length pms)).map FV.fin) w
      = (cValsOf w r.percents r.total pms).map FV.fin := by
    rw [zipWith_div100_map_fin _ _ hw]
    rw [zipWith_trunc_append _ _ _ _ _ _ (by rw [htl, hlen])
      (by rw [hAlen, htl, ← hlen]; omega)]
    rw [cValsOf, ← hAeq]
  have hs1 : (List.zipWith (fun t a => t - a)
        ((targetsOf r.percents r.total)
          ++ [r.total - (targetsOf r.percents r.total).sum])
        (contribColsQ (targetsOf r.percents r.total).length pms)).sum
      = r.total - 100 * fracSumOf pms := by
    rw [sum_zipWith_sub _ _ (by rw [List.length_append, hAlen]; simp)]
    rw [List.sum_append, List.sum_cons, List.sum_nil]
    rw [contribColsQ_sum _ _ hql']
    ring
  have hlc : ((cValsOf w r.percents r.total pms).map FV.fin).length
      = (targetsOf r.percents r.total).length := by
    rw [List.length_map, cValsOf, List.length_zipWith, List.length_zipWith]
    rw [contribColsQ_length _ _ hql, htl, hlen]
    omega
  refine ⟨rfl, ?_, ?_, ?_⟩
  · rw [weightUpdateRow]
    simp only [eq_self_iff_true, if_true]
    rw [hbools, hA, hlack, hcorr]
    rw [List.take_append_of_le_length (le_of_eq hlc.symm), ← hlc,
      List.take_length, List.map_map]
    rfl
  · rw [weightUpdateRow]
    simp only [eq_self_iff_true, if_true]
    rw [hbools]
    exact pres_eval _ pms hfac hfnn
  · rw [weightUpdateRow]
    simp only [eq_self_iff_true, if_true]
    rw [hbools, hA, hlack, hcorr]
    rw [pdSum_map_fin, pdSum_map_fin_append_nan, FV.sub_fin_fin, FV.round_fin]
    rw [hs1, sValOf]

theorem pdSum_fin_triple (c g : List ℚ) (s : ℚ) :
    pdSum (c.map FV.fin ++ g.map FV.fin ++ [FV.fin s])
      = FV.fin (c.sum + g.sum + s) := by
  rw [show c.map FV.fin ++ g.map FV.fin ++ [FV.fin s]
      = ((c ++ g ++ [s]).map FV.fin) by simp]
  rw [pdSum_map_fin]
  rw [List.sum_append, List.sum_append, List.sum_cons, List.sum_nil, add_zero]

theorem filter_map_fin_not_nan (c : List ℚ) :
    (c.map FV.fin).filter (fun v => !v.isNan) = c.map FV.fin := by
  refine List.filter_eq_self.mpr ?_
  intro v hv
  rcases List.mem_map.mp hv with ⟨x, _, he⟩
  rw [← he]
  rfl

theorem pdSum_fin_nan_triple (c : List ℚ) (m : ℕ) (s : ℚ) :
    pdSum (c.map FV.fin ++ List.replicate m FV.nan ++ [FV.fin s])
      = FV.fin (c.sum + s) := by
  have hfil : (c.map FV.fin ++ List.replicate m FV.nan ++ [FV.fin s]).filter
        (fun v => !v.isNan)
      = ((c ++ [s]).map FV.fin).filter (fun v => !v.isNan) := by
    rw [List.filter_append, List.filter_append, List.filter_replicate]
    rw [filter_map_fin_not_nan]
    rw [show (c ++ [s]).map FV.fin = c.map FV.fin ++ [FV.fin s] by simp]
    rw [List.filter_append, filter_map_fin_not_nan]
    norm_num [FV.isNan]
  rw [pdSum, hfil, ← pdSum, pdSum_map_fin]
  rw [List.sum_append, List.sum_cons, List.sum_nil, add_zero]

theorem contribRes_fold : ∀ (gq : List (ℚ × List ℚ)) (accQ : List ℚ),
    List.foldl (fun acc br => List.zipWith FV.add acc
        (br.2.map (fun x => FV.nanToZero (br.1.mul x))))
      (accQ.map FV.fin)
      (gq.map (Prod.map FV.fin (fun rq => rq.map FV.fin)))
    = (List.foldl (fun acc gr => List.zipWith (fun a b => a + b) acc
        (gr.2.map (fun x => gr.1 * x))) accQ gq).map FV.fin
  | [], _ => rfl
  | gr :: t, accQ => by
      simp only [List.map_cons, List.foldl_cons, Prod.map_fst, Prod.map_snd]
      have hx : ((gr.2.map FV.fin).map (fun x => FV.nanToZero ((FV.fin gr.1).mul x)))
          = (gr.2.map (fun x => gr.1 * x)).map FV.fin := by
        rw [List.map_map, List.map_map]
        refine List.map_congr_left ?_
        intro x _
        simp
      rw [hx, zipWith_add_map_fin]
      exact contribRes_fold t _

theorem direct_map_fin : ∀ (cQ w : List ℚ),
    List.zipWith (fun c wv => FV.nanToZero (c.mul (FV.fin wv))) (cQ.map FV.fin) w
      = (List.zipWith (fun c wv => c * wv) cQ w).map FV.fin
  | [], _ => by simp
  | _ :: _, [] => by simp
  | c :: t, wv :: w => by
      simp only [List.map_cons, List.zipWith_cons_cons, FV.mul_fin_fin,
        FV.nanToZero_fin]
      rw [direct_map_fin t w]

theorem final_div_map_fin (Tt : ℚ) (hT : Tt ≠ 0) : ∀ (A D : List ℚ),
    List.zipWith (fun a b => (FV.add a b).div (FV.fin Tt))
        (A.map FV.fin) (D.map FV.fin)
      = (List.zipWith (fun a b => (a + b) / Tt) A D).map FV.fin
  | [], _ => by simp
  | _ :: _, [] => by simp
  | a :: A, b2 :: D => by
      simp only [List.map_cons, List.zipWith_cons_cons, FV.add_fin_fin]
      rw [FV.div_fin_fin _ _ hT, final_div_map_fin Tt hT A D]

/-- Evaluation of `Result.calc` on one row of fully measured (finite)
data: every output cell is `(premixture contribution + measured × stock
wt%) / total`. -/
theorem resultRow_fin_eval (w cQ gQ : List ℚ) (s : ℚ) (rsQ : List (List ℚ))
    (Tt : ℚ) (hTt : cQ.sum + gQ.sum + s = Tt) (hT : Tt ≠ 0) :
    resultRow w (cQ.map FV.fin) (gQ.map FV.fin) (FV.fin s)
        (rsQ.map (fun rq => rq.map FV.fin))
      = (List.zipWith (fun a b => (a + b) / Tt)
          (contribResQ w.length gQ rsQ)
          (List.zipWith (fun c wv => c * wv) cQ w)).map FV.fin := by
  simp only [resultRow]
  have htot : pdSum (cQ.map FV.fin ++ gQ.map FV.fin ++ [FV.fin s]) = FV.fin Tt := by
    rw [pdSum_fin_triple, hTt]
  rw [htot]
  have hzip : (gQ.map FV.fin).zip (rsQ.map (fun rq => rq.map FV.fin))
      = (gQ.zip rsQ).map (Prod.map FV.fin (fun rq => rq.map FV.fin)) :=
    List.zip_map _ _ _ _
  have hrep : List.replicate w.length (FV.fin 0)
      = (List.replicate w.length (0:ℚ)).map FV.fin := by
    rw [List.map_replicate]
  rw [hzip, hrep, contribRes_fold, direct_map_fin, ← contribResQ,
    final_div_map_fin Tt hT]

theorem fold_nanrows : ∀ (l : List (FV × List FV)) (acc : List FV),
    (∀ pr ∈ l, pr.1 = FV.nan ∧ acc.length ≤ pr.2.length) →
    List.foldl (fun acc br => List.zipWith FV.add acc
      (br.2.map (fun x => FV.nanToZero (br.1.mul x)))) acc l = acc
  | [], _, _ => rfl
  | pr :: t, acc, h => by
      obtain ⟨h1, h2⟩ := h pr (List.mem_cons_self pr t)
      have hx : pr.2.map (fun x => FV.nanToZero (pr.1.mul x))
          = List.replicate pr.2.length (FV.fin 0) := by
        rw [show (fun x => FV.nanToZero (pr.1.mul x)) = (fun _ : FV => FV.fin 0) by
          funext x
          rw [h1]
          cases x <;> simp [FV.mul, FV.nanToZero]]
        exact List.map_const _ _
      have hstep : List.zipWith FV.add acc
          (pr.2.map (fun x => FV.nanToZero (pr.1.mul x))) = acc := by
        rw [hx, zipWith_replicate_right FV.add (FV.fin 0) acc _ h2]
        have hid : ∀ v ∈ acc, FV.add v (FV.fin 0) = v := by
          intro v _
          cases v <;> simp [FV.add]
        rw [List.map_congr_left hid]
        simp
      simp only [List.foldl_cons, hstep]
      exact fold_nanrows t acc (fun y hy => h y (List.mem_cons_of_mem pr hy))

/-- Evaluation of `Result.calc` on a row whose premixture cells are all
unset (`NaN`): the masked premixture products contribute nothing, the
skip-`NaN` total ignores the unset cells. -/
theorem resultRow_nanpm_eval (w cQ : List ℚ) (m : ℕ) (s : ℚ)
    (rs : List (List FV))
    (hrl : ∀ row ∈ rs, w.length ≤ row.length)
    (Tt : ℚ) (hTt : cQ.sum + s = Tt) (hT : Tt ≠ 0) :
    resultRow w (cQ.map FV.fin) (List.replicate m FV.nan) (FV.fin s) rs
      = (List.zipWith (fun c wv => c * wv) cQ w).map
          (fun b => FV.fin ((0 + b) / Tt)) := by
  simp only [resultRow]
  have htot : pdSum (cQ.map FV.fin ++ List.replicate m FV.nan ++ [FV.fin s])
      = FV.fin Tt := by
    rw [pdSum_fin_nan_triple, hTt]
  rw [htot]
  have hcontrib : List.foldl (fun acc br => List.zipWith FV.add acc
        (br.2.map (fun x => FV.nanToZero (br.1.mul x))))
      (List.replicate w.length (FV.fin 0)) ((List.replicate m FV.nan).zip rs)
      = List.replicate w.length (FV.fin 0) := by
    refine fold_nanrows _ _ ?_
    intro pr hpr
    obtain ⟨p1, p2⟩ := pr
    have hm := List.of_mem_zip hpr
    refine ⟨List.eq_of_mem_replicate hm.1, ?_⟩
    rw [List.length_replicate]
    exact hrl p2 hm.2
  rw [hcontrib, direct_map_fin]
  rw [zipWith_replicate_left (fun a b => (FV.add a b).div (FV.fin Tt)) (FV.fin 0)
    _ _ (by rw [List.length_map, List.length_zipWith]; exact min_le_right _ _)]
  rw [List.map_map]
  refine List.map_congr_left ?_
  intro b _
  simp only [Function.comp_apply, FV.add_fin_fin]
  rw [FV.div_fin_fin _ _ hT]

theorem map_mul_zipWith_add (c : ℚ) : ∀ (a b : List ℚ),
    (List.zipWith (fun x y => x + y) a b).map (fun v => c * v)
      = List.zipWith (fun x y => x + y)
          (a.map (fun v => c * v)) (b.map (fun v => c * v))
  | [], _ => by simp
  | _ :: _, [] => by simp
  | x :: a, y :: b => by
      simp only [List.zipWith_cons_cons, List.map_cons]
      rw [map_mul_zipWith_add c a b]
      congr 1
      ring

theorem contribRes_fold_link (n : ℕ) : ∀ (pms : List PMSpec) (acc1 : List ℚ),
    acc1.length = n + 1 →
    (∀ x ∈ pms, x.q.length = n) → (∀ x ∈ pms, x.r.length = n) →
    (∀ x ∈ pms, x.b = true → x.r = x.q) →
    List.foldl (fun acc x => List.zipWith (fun a b => a + b) acc
        (x.r.map (fun v => boolQ x.b * 100 * x.f * v)))
      ((acc1.take n).map (fun a => 100 * a)) pms
    = ((List.foldl (fun acc x => List.zipWith (fun a b => a + b) acc
        ((premixPcols x.q).map (fun p => boolQ x.b * x.f * p))) acc1 pms).take n).map
        (fun a => 100 * a)
  | [], _, _, _, _, _ => rfl
  | x :: t, acc1, hl, hql, hrl, hbr => by
      have hqn := hql x (List.mem_cons_self x t)
      have hrn := hrl x (List.mem_cons_self x t)
      have hrow : x.r.map (fun v => boolQ x.b * 100 * x.f * v)
          = ((x.q.map (fun p => boolQ x.b * x.f * p)).map (fun a => 100 * a)) := by
        rw [List.map_map]
        cases hb : x.b with
        | true =>
            rw [hbr x (List.mem_cons_self x t) hb]
            refine List.map_congr_left ?_
            intro v _
            simp only [Function.comp_apply, hb, boolQ, if_true]
            ring
        | false =>
            have hL : x.r.map (fun v => boolQ false * 100 * x.f * v)
                = List.replicate x.r.length 0 := by
              rw [show (fun v => boolQ false * 100 * x.f * v) = (fun _ : ℚ => (0:ℚ)) by
                funext v
                simp [boolQ]]
              exact List.map_const _ _
            have hR : x.q.map ((fun a : ℚ => 100 * a) ∘ (fun p => boolQ false * x.f * p))
                = List.replicate x.q.length 0 := by
              rw [show ((fun a : ℚ => 100 * a) ∘ (fun p => boolQ false * x.f * p))
                  = (fun _ : ℚ => (0:ℚ)) by
                funext p
                simp [boolQ]]
              exact List.map_const _ _
            rw [hL, hR, hrn, hqn]
      have hPn : ((premixPcols x.q).map (fun p => boolQ x.b * x.f * p)).length
          = n + 1 := by
        rw [List.length_map, premixPcols, List.length_append, hqn]
        simp
      have hstep : List.zipWith (fun a b => a + b)
            ((acc1.take n).map (fun a => 100 * a))
            (x.r.map (fun v => boolQ x.b * 100 * x.f * v))
          = ((List.zipWith (fun a b => a + b) acc1
              ((premixPcols x.q).map (fun p => boolQ x.b * x.f * p))).take n).map
              (fun a => 100 * a) := by
        rw [List.take_zipWith, map_mul_zipWith_add, hrow]
        congr 2
        rw [← List.map_take]
        congr 1
        rw [premixPcols, ← hqn]
        exact (List.take_left _ _).symm
      simp only [List.foldl_cons]
      rw [hstep]
      exact contribRes_fold_link n t _
        (by rw [List.length_zipWith, hl, hPn, min_self])
        (fun y hy => hql y (List.mem_cons_of_mem x hy))
        (fun y hy => hrl y (List.mem_cons_of_mem x hy))
        (fun y hy => hbr y (List.mem_cons_of_mem x hy))

/-- On fully measured data with perfect premixture execution, the
premixture contribution inside `Result.calc` is exactly 100 times the
per-material contribution `Weight` subtracted: the consumed fraction times
the premixture's resulting wt% recovers the supplied mass (scaled by the
percent basis). -/
theorem contribRes_eq_scaled (n : ℕ) (pms : List PMSpec)
    (hql : ∀ x ∈ pms, x.q.length = n) (hrl : ∀ x ∈ pms, x.r.length = n)
    (hbr : ∀ x ∈ pms, x.b = true → x.r = x.q) :
    contribResQ n (pms.map (fun x => boolQ x.b * 100 * x.f)) (pms.map PMSpec.r)
      = ((contribColsQ n pms).take n).map (fun a => 100 * a) := by
  rw [contribResQ, contribColsQ, List.zip_map', List.foldl_map]
  have hinit : List.replicate n (0:ℚ)
      = ((List.replicate (n + 1) (0:ℚ)).take n).map (fun a => 100 * a) := by
    rw [List.take_replicate]
    have hmin : min n (n + 1) = n := by omega
    rw [hmin, List.map_replicate]
    norm_num
  rw [hinit]
  exact contribRes_fold_link n pms _ (by simp) hql hrl hbr

theorem sum_map_g (pms : List PMSpec) :
    (pms.map (fun x => boolQ x.b * 100 * x.f)).sum = 100 * fracSumOf pms := by
  rw [fracSumOf]
  induction pms with
  | nil => simp
  | cons x t ih =>
      simp only [List.map_cons, List.sum_cons, ih]
      ring

/-- Claim C1: round trip through Weight, Work and Result.  The Work row
is filled with exactly the values `Weight.update_data` computed (material
cells, premixture fraction cells, `Solvent`); premixture execution was
itself perfect (each selected premixture's `ResultPreMixture` row equals
its design contents); every limiting factor is finite, the selected ones
nonnegative; stock concentrations and the total are positive; and the
computed cells are exactly representable at `digit` decimals (the claim's
"to within rounding at `digit` decimals").  Then `Result.calc` returns
exactly the composition's target weight-percent of every material.  Both
branches of the premixture test are covered: `anySel` may be true for any
selection pattern, or false when nothing is selected. -/
theorem C1_result_roundtrip (d : ℕ) (w : List ℚ) (r : CompRow)
    (pms : List PMSpec) (anySel : Bool)
    (hbools : r.bools = pms.map PMSpec.b)
    (hsel : anySel = true ∨ (anySel = false ∧ ∀ x ∈ pms, x.b = false))
    (hlen : r.percents.length = w.length)
    (hw : ∀ x ∈ w, 0 < x) (hT : 0 < r.total)
    (hfac : ∀ x ∈ pms, factorRow (targetsOf r.percents r.total) x.q = FV.fin x.f)
    (hfnn : ∀ x ∈ pms, x.b = true → 0 ≤ x.f)
    (hbr : ∀ x ∈ pms, x.b = true → x.r = x.q)
    (hql : ∀ x ∈ pms, x.q.length = r.percents.length)
    (hrl : ∀ x ∈ pms, x.r.length = r.percents.length)
    (hfixc : ∀ c ∈ cValsOf w r.percents r.total pms, roundTo d c = c)
    (hfixs : roundTo d (sValOf w r.percents r.total pms)
        = sValOf w r.percents r.total pms) :
    resultRow w
      (weightUpdateRow d w anySel (pms.map PMSpec.q) r).mats
      (weightUpdateRow d w anySel (pms.map PMSpec.q) r).pres
      (weightUpdateRow d w anySel (pms.map PMSpec.q) r).solvent
      (pms.map (fun x => x.r.map FV.fin))
      = r.percents.map FV.fin := by
  have hwne : ∀ x ∈ w, x ≠ 0 := fun x hx => ne_of_gt (hw x hx)
  have hTne : r.total ≠ 0 := ne_of_gt hT
  have hcvlen : (cValsOf w r.percents r.total pms).length = r.percents.length := by
    rw [cValsOf, List.length_zipWith, List.length_zipWith, targetsOf,
      List.length_map, contribColsQ_length _ _ hql, ← hlen]
    omega
  have hresarg : pms.map (fun x => x.r.map FV.fin)
      = (pms.map PMSpec.r).map (fun rq => rq.map FV.fin) := by
    rw [List.map_map]
    rfl
  have hmats : (cValsOf w r.percents r.total pms).map (fun c => FV.fin (roundTo d c))
      = (cValsOf w r.percents r.total pms).map FV.fin := by
    refine List.map_congr_left ?_
    intro c hc
    rw [hfixc c hc]
  rcases hsel with hsel | ⟨hsel, hbf⟩
  · subst hsel
    obtain ⟨-, hm, hp, hs⟩ :=
      weightUpdateRow_sel d w pms r hbools hlen hwne hfac hfnn hql
    rw [hm, hp, hs, hfixs, hmats]
    have hpres : pms.map (fun x => FV.fin (boolQ x.b * 100 * x.f))
        = (pms.map (fun x => boolQ x.b * 100 * x.f)).map FV.fin := by
      rw [List.map_map]
      rfl
    rw [hpres, hresarg]
    have htot : (cValsOf w r.percents r.total pms).sum
        + (pms.map (fun x => boolQ x.b * 100 * x.f)).sum
        + sValOf w r.percents r.total pms = r.total := by
      rw [sum_map_g, sValOf]
      ring
    rw [resultRow_fin_eval w _ _ _ _ r.total htot hTne]
    have hql2 : ∀ x ∈ pms, x.q.length = w.length := by
      intro x hx
      rw [← hlen]
      exact hql x hx
    have hrl2 : ∀ x ∈ pms, x.r.length = w.length := by
      intro x hx
      rw [← hlen]
      exact hrl x hx
    rw [contribRes_eq_scaled w.length pms hql2 hrl2 hbr]
    have hAw : contribColsQ w.length pms = contribColsQ r.percents.length pms := by
      rw [hlen]
    rw [hAw]
    refine List.ext_getElem ?_ ?_
    · simp only [List.length_map, List.length_zipWith, List.length_take,
        hcvlen, contribColsQ_length _ _ hql]
      rw [← hlen]
      omega
    · intro i h1 h2
      rw [List.length_map] at h2
      simp only [List.getElem_map, List.getElem_zipWith, List.getElem_take,
        cValsOf, targetsOf]
      congr 1
      have hwi : i < w.length := by rw [← hlen]; exact h2
      have hwiv : w[i] ≠ 0 := hwne _ (List.getElem_mem _)
      field_simp
      ring
  · subst hsel
    obtain ⟨-, hm, hp, hs⟩ :=
      weightUpdateRow_noSel d w (pms.map PMSpec.q) r hlen hwne
    rw [hm, hp, hs]
    have hA0 : contribColsQ r.percents.length pms
        = List.replicate (r.percents.length + 1) 0 :=
      contribColsQ_zero _ _ hql hbf
    have hcv : cValsOf w r.percents r.total pms
        = List.zipWith (fun t wi => t / wi * 100) (targetsOf r.percents r.total) w := by
      rw [cValsOf, hA0]
      rw [zipWith_replicate_right (fun t a => t - a) 0 _ _
        (by rw [targetsOf, List.length_map]; omega)]
      congr 1
      have hz : ∀ t ∈ targetsOf r.percents r.total, t - 0 = t := by
        intro t _
        ring
      rw [List.map_congr_left hz]
      simp
    have hfs0 : fracSumOf pms = 0 := fracSumOf_zero pms hbf
    rw [← hcv]
    have hsv : r.total - (cValsOf w r.percents r.total pms).sum
        = sValOf w r.percents r.total pms := by
      rw [sValOf, hfs0]
      ring
    rw [hsv, hfixs, hmats]
    rw [show (List.replicate (pms.map PMSpec.q).length FV.nan)
        = List.replicate pms.length FV.nan from by rw [List.length_map]]
    have hrows : ∀ row ∈ pms.map (fun x => x.r.map FV.fin),
        w.length ≤ row.length := by
      intro row hrow
      rcases List.mem_map.mp hrow with ⟨x, hx, he⟩
      rw [← he, List.length_map, hrl x hx, hlen]
    have htot2 : (cValsOf w r.percents r.total pms).sum
        + sValOf w r.percents r.total pms = r.total := by
      rw [sValOf, hfs0]
      ring
    rw [resultRow_nanpm_eval w _ pms.length _ _ hrows r.total htot2 hTne]
    refine List.ext_getElem ?_ ?_
    · simp only [List.length_map, List.length_zipWith, hcvlen]
      rw [← hlen]
      omega
    · intro i h1 h2
      rw [List.length_map] at h2
      simp only [hcv, List.getElem_map, List.getElem_zipWith, targetsOf]
      congr 1
      have hwiv : w[i] ≠ 0 := hwne _ (List.getElem_mem _)
      field_simp
      ring

theorem C1_result_roundtrip_witness :
    resultRow [100, 50]
      (weightUpdateRow 2 [100, 50] true [[50, 0]]
        ⟨"A", [10, 0], [true], 100⟩).mats
      (weightUpdateRow 2 [100, 50] true [[50, 0]]
        ⟨"A", [10, 0], [true], 100⟩).pres
      (weightUpdateRow 2 [100, 50] true [[50, 0]]
        ⟨"A", [10, 0], [true], 100⟩).solvent
      [[FV.fin 50, FV.fin 0]]
      = [FV.fin 10, FV.fin 0] := by
  have h := C1_result_roundtrip 2 [100, 50] ⟨"A", [10, 0], [true], 100⟩
    [⟨true, [50, 0], 1/5, [50, 0]⟩] true rfl (Or.inl rfl) rfl
    (by norm_num) (by norm_num)
    (by
      intro x hx
      fin_cases hx
      norm_num [factorRow, targetsOf, fvMinList, FV.div, FV.fvMin, FV.isNan,
        min_def])
    (by
      intro x hx
      fin_cases hx
      norm_num)
    (by
      intro x hx _
      fin_cases hx
      rfl)
    (by
      intro x hx
      fin_cases hx
      rfl)
    (by
      intro x hx
      fin_cases hx
      rfl)
    (by
      intro c hc
      norm_num [cValsOf, contribColsQ, targetsOf, premixPcols, boolQ,
        List.replicate_succ, List.zipWith_cons_cons] at hc
      rw [hc]
      norm_num [roundTo])
    (by
      norm_num [sValOf, fracSumOf, cValsOf, contribColsQ, targetsOf,
        premixPcols, boolQ, roundTo, round_eq, List.replicate_succ,
        List.zipWith_cons_cons])
  exact h

/-- Claim C6 counterexample: one material with stock wt% 50, no
premixtures; the Work row has the material cell unset and `Solvent`
measured as 10.  The claim says Result's cell for that material is unset;
the code's `.fillna(0.)` on the direct material contribution makes it
`0.0` instead. -/
theorem C6_counterexample :
    resultRow [50] [FV.nan] [] (FV.fin 10) [] = [FV.fin 0]
    ∧ FV.fin 0 ≠ FV.nan := by
  constructor
  · norm_num [resultRow, pdSum, FV.isNan, FV.mul, FV.add, FV.div, FV.nanToZero]
  · exact fun h => FV.noConfusion h

/-- Claim C6 as amended: an unset `WorkPreMixture` material cell makes the
corresponding `ResultPreMixture` cell unset (`NaN` propagates through
multiplication and division), but inside `Result` BOTH the premixture
contribution and the directly-weighed material contribution treat missing
values as zero (`_premixture[np.isnan(...)] = 0.` and `.fillna(0.)`), so
an unset Work material cell behaves exactly like a measured `0.0` and the
output cell is a number, not unset. -/
theorem C6_unset_propagation (wt : List ℚ) (matCells l1 l2 pmCells : List FV)
    (solvCell : FV) (resPM : List (List FV)) (i : ℕ)
    (hi : i < matCells.length)
    (hio : i < (resultPMRow wt matCells solvCell).length)
    (hnan : matCells.get ⟨i, hi⟩ = FV.nan) :
    (resultPMRow wt matCells solvCell).get ⟨i, hio⟩ = FV.nan
    ∧ resultRow wt (l1 ++ FV.nan :: l2) pmCells solvCell resPM
        = resultRow wt (l1 ++ FV.fin 0 :: l2) pmCells solvCell resPM := by
  constructor
  · rw [List.get_eq_getElem]
    unfold resultPMRow
    rw [List.getElem_zipWith]
    rw [List.get_eq_getElem] at hnan
    rw [hnan]
    simp [FV.mul, FV.div]
  · rw [resultRow, resultRow]
    have htot : pdSum ((l1 ++ FV.nan :: l2) ++ pmCells ++ [solvCell])
        = pdSum ((l1 ++ FV.fin 0 :: l2) ++ pmCells ++ [solvCell]) := by
      have e1 : (l1 ++ FV.nan :: l2) ++ pmCells ++ [solvCell]
          = l1 ++ FV.nan :: (l2 ++ pmCells ++ [solvCell]) := by
        simp
      have e2 : (l1 ++ FV.fin 0 :: l2) ++ pmCells ++ [solvCell]
          = l1 ++ FV.fin 0 :: (l2 ++ pmCells ++ [solvCell]) := by
        simp
      rw [e1, e2, pdSum_congr_nan_zero]
    rw [htot, result_direct_congr_nan_zero]

theorem C6_unset_propagation_witness :
    (resultPMRow [50] [FV.nan] (FV.fin 10)).get
        ⟨0, by norm_num [resultPMRow]⟩ = FV.nan
    ∧ resultRow [50] ([] ++ FV.nan :: []) [] (FV.fin 10) []
        = resultRow [50] ([] ++ FV.fin 0 :: []) [] (FV.fin 10) [] :=
  C6_unset_propagation [50] [FV.nan] [] [] [] (FV.fin 10) [] 0
    (by norm_num) (by norm_num [resultPMRow]) rfl

/-- Claim C4: for every composition row of a table in which no premixture
boolean is selected, with every stock weight-percent positive, the sum of
the material masses of the `Weight` row plus its `Solvent` value equals
the composition's total up to the accumulated rounding error of the
`n + 1` cells rounded to `digit` decimals. -/
theorem C4_mass_balance (d : ℕ) (w : List ℚ) (qRows : List (List ℚ))
    (rows : List CompRow)
    (hb : ∀ r ∈ rows, ∀ b ∈ r.bools, b = false)
    (hw : ∀ x ∈ w, 0 < x)
    (hlen : ∀ r ∈ rows, r.percents.length = w.length) :
    ∀ pr ∈ rows.zip (weightUpdateTable d w qRows rows),
      (∀ v ∈ pr.2.mats, v.isFin = true) ∧ pr.2.solvent.isFin = true
      ∧ |(pr.2.mats.map FV.val).sum + pr.2.solvent.val - pr.1.total|
          ≤ (pr.1.percents.length + 1 : ℚ) * (1 / 2 / 10 ^ d) := by
  intro pr hpr
  rw [weightUpdateTable_noSel d w qRows rows hb] at hpr
  obtain ⟨hmem, heq⟩ := mem_zip_map _ _ _ hpr
  obtain ⟨-, hmats, -, hsolv⟩ := weightUpdateRow_noSel d w qRows pr.1
    (hlen pr.1 hmem) (fun x hx => ne_of_gt (hw x hx))
  rw [heq, hmats, hsolv]
  refine ⟨?_, rfl, ?_⟩
  · intro v hv
    rcases List.mem_map.mp hv with ⟨c, _, hc⟩
    rw [← hc]
    rfl
  · have hval : ((List.zipWith (fun t wi => t / wi * 100)
        (targetsOf pr.1.percents pr.1.total) w).map
          (fun c => FV.fin (roundTo d c))).map FV.val
        = (List.zipWith (fun t wi => t / wi * 100)
            (targetsOf pr.1.percents pr.1.total) w).map (roundTo d) := by
      rw [List.map_map]
      rfl
    rw [hval, FV.val_fin]
    have hcl : (List.zipWith (fun t wi => t / wi * 100)
        (targetsOf pr.1.percents pr.1.total) w).length
        = pr.1.percents.length := by
      rw [List.length_zipWith, targetsOf, List.length_map, hlen pr.1 hmem,
        min_self, ← hlen pr.1 hmem]
    have h1 := abs_sum_map_roundTo_sub_le d
      (List.zipWith (fun t wi => t / wi * 100) (targetsOf pr.1.percents pr.1.total) w)
    have h2 := abs_roundTo_sub_le d (pr.1.total
      - (List.zipWith (fun t wi => t / wi * 100) (targetsOf pr.1.percents pr.1.total) w).sum)
    rw [hcl] at h1
    set cv := List.zipWith (fun t wi => t / wi * 100)
      (targetsOf pr.1.percents pr.1.total) w with hcv
    have hkey : (cv.map (roundTo d)).sum + roundTo d (pr.1.total - cv.sum) - pr.1.total
        = ((cv.map (roundTo d)).sum - cv.sum)
          + (roundTo d (pr.1.total - cv.sum) - (pr.1.total - cv.sum)) := by
      ring
    rw [hkey]
    have htri := abs_add ((cv.map (roundTo d)).sum - cv.sum)
      (roundTo d (pr.1.total - cv.sum) - (pr.1.total - cv.sum))
    have hmul : (pr.1.percents.length + 1 : ℚ) * (1 / 2 / 10 ^ d)
        = (pr.1.percents.length : ℚ) * (1 / 2 / 10 ^ d) + 1 / 2 / 10 ^ d := by
      ring
    rw [hmul]
    exact htri.trans (add_le_add h1 h2)

theorem C4_mass_balance_witness :
    (∀ v ∈ (weightUpdateRow 2 exampleStock false [] exampleRow).mats,
        v.isFin = true)
    ∧ (weightUpdateRow 2 exampleStock false [] exampleRow).solvent.isFin = true
    ∧ |((weightUpdateRow 2 exampleStock false [] exampleRow).mats.map FV.val).sum
        + (weightUpdateRow 2 exampleStock false [] exampleRow).solvent.val
        - exampleRow.total|
      ≤ (exampleRow.percents.length + 1 : ℚ) * (1 / 2 / 10 ^ 2) :=
  C4_mass_balance 2 exampleStock [] [exampleRow]
    (by simp [exampleRow]) (by norm_num [exampleStock])
    (by simp [exampleRow, exampleStock])
    (exampleRow, weightUpdateRow 2 exampleStock false [] exampleRow)
    (by simp [weightUpdateTable, exampleRow])

/-- Claim C10 (implicit): when no composition row selects any premixture,
the `Weight` table still has one column per premixture name, and every
cell of those columns is unset (`NaN`, the reindex filler for the
`_premixture = None` branch), not zero. -/
theorem C10_premixture_columns_unset (d : ℕ) (w : List ℚ)
    (qRows : List (List ℚ)) (rows : List CompRow)
    (hb : ∀ r ∈ rows, ∀ b ∈ r.bools, b = false) :
    ∀ out ∈ weightUpdateTable d w qRows rows,
      out.pres = List.replicate qRows.length FV.nan ∧ FV.nan ≠ FV.fin 0 := by
  intro out hout
  rw [weightUpdateTable_noSel d w qRows rows hb] at hout
  rcases List.mem_map.mp hout with ⟨r, _, hre⟩
  rw [← hre]
  constructor
  · rw [weightUpdateRow]
    simp only [if_neg (by simp : ¬ (false = true))]
  · exact fun h => FV.noConfusion h

theorem C10_premixture_columns_unset_witness :
    (weightUpdateRow 2 [100] false [[5]]
        ⟨"A", [10], [false], 100⟩).pres = List.replicate 1 FV.nan
    ∧ FV.nan ≠ FV.fin 0 := by
  have h := C10_premixture_columns_unset 2 [100] [[5]]
    [⟨"A", [10], [false], 100⟩] (by simp)
    (weightUpdateRow 2 [100] false [[5]] ⟨"A", [10], [false], 100⟩)
    (by simp [weightUpdateTable])
  exact h

/-- Claim C2: for a premixture supplying material `M` (position `k`) at
per-unit content `qM > 0`, and two compositions selecting it that require
the different, satisfiable amounts `mA` and `mB` of `M` and nothing else,
`Weight.calc_premixture` reports consumed fractions whose value, divided
by 100 and multiplied by the per-unit content, is exactly the requested
mass; the limiting ratio is `M`'s ratio (the other materials' zero
requirements are non-limiting). -/
theorem C2_premixture_allocation
    (mRowA mRowB qRow : List ℚ) (k : ℕ) (mA mB qM : ℚ)
    (hkA : k < mRowA.length) (hkB : k < mRowB.length) (hkq : k < qRow.length)
    (hgA : mRowA.get ⟨k, hkA⟩ = mA) (hgB : mRowB.get ⟨k, hkB⟩ = mB)
    (hgq : qRow.get ⟨k, hkq⟩ = qM)
    (hmA : 0 < mA) (hmB : 0 < mB) (hqM : 0 < qM)
    (hleA : mA ≤ qM) (hleB : mB ≤ qM) (hne : mA ≠ mB)
    (hzA : ∀ mq ∈ mRowA.zip qRow, mq.1 = 0 ∨ (mq.1 = mA ∧ mq.2 = qM))
    (hzB : ∀ mq ∈ mRowB.zip qRow, mq.1 = 0 ∨ (mq.1 = mB ∧ mq.2 = qM)) :
    factorRow mRowA qRow = FV.fin (mA / qM)
    ∧ factorRow mRowB qRow = FV.fin (mB / qM)
    ∧ fractionOf true mRowA qRow = FV.fin (100 * (mA / qM))
    ∧ fractionOf true mRowB qRow = FV.fin (100 * (mB / qM))
    ∧ 100 * (mA / qM) / 100 * qM = mA
    ∧ 100 * (mB / qM) / 100 * qM = mB
    ∧ 100 * (mA / qM) ≠ 100 * (mB / qM) := by
  have hqne : qM ≠ 0 := ne_of_gt hqM
  have hfA : factorRow mRowA qRow = FV.fin (mA / qM) := by
    have h := factorRow_eq_genuine_min mRowA qRow k hkA hkq
      (by rw [hgA]; exact ne_of_gt hmA) (by rw [hgq]; exact hqne)
      (by rw [hgA, hgq]; exact (div_le_one hqM).mpr hleA)
      (by
        intro mq hmq h0
        rcases hzA mq hmq with h1 | ⟨h1, h2⟩
        · rw [h1]
        · exact absurd h0 (h2 ▸ hqne))
      (by
        intro mq hmq hq2 hm2
        rcases hzA mq hmq with h1 | ⟨h1, h2⟩
        · exact absurd h1 hm2
        · rw [hgA, hgq, h1, h2])
    rwa [hgA, hgq] at h
  have hfB : factorRow mRowB qRow = FV.fin (mB / qM) := by
    have h := factorRow_eq_genuine_min mRowB qRow k hkB hkq
      (by rw [hgB]; exact ne_of_gt hmB) (by rw [hgq]; exact hqne)
      (by rw [hgB, hgq]; exact (div_le_one hqM).mpr hleB)
      (by
        intro mq hmq h0
        rcases hzB mq hmq with h1 | ⟨h1, h2⟩
        · rw [h1]
        · exact absurd h0 (h2 ▸ hqne))
      (by
        intro mq hmq hq2 hm2
        rcases hzB mq hmq with h1 | ⟨h1, h2⟩
        · exact absurd h1 hm2
        · rw [hgB, hgq, h1, h2])
    rwa [hgB, hgq] at h
  refine ⟨hfA, hfB,
    fractionOf_true_eq _ _ _ hfA (le_of_lt (div_pos hmA hqM)),
    fractionOf_true_eq _ _ _ hfB (le_of_lt (div_pos hmB hqM)),
    by field_simp; ring, by field_simp; ring, ?_⟩
  intro h
  have h2 : mA / qM = mB / qM := by linarith
  have h3 : mA / qM * qM = mB / qM * qM := by rw [h2]
  rw [div_mul_cancel₀ _ hqne, div_mul_cancel₀ _ hqne] at h3
  exact hne h3

theorem C2_premixture_allocation_witness :
    factorRow [2, 0] [10, 5] = FV.fin ((2:ℚ) / 10)
    ∧ factorRow [8, 0] [10, 5] = FV.fin ((8:ℚ) / 10)
    ∧ fractionOf true [2, 0] [10, 5] = FV.fin (100 * ((2:ℚ) / 10))
    ∧ fractionOf true [8, 0] [10, 5] = FV.fin (100 * ((8:ℚ) / 10))
    ∧ 100 * ((2:ℚ) / 10) / 100 * 10 = 2
    ∧ 100 * ((8:ℚ) / 10) / 100 * 10 = 8
    ∧ 100 * ((2:ℚ) / 10) ≠ 100 * ((8:ℚ) / 10) :=
  C2_premixture_allocation [2, 0] [8, 0] [10, 5] 0 2 8 10
    (by norm_num) (by norm_num) (by norm_num)
    (by norm_num [List.get]) (by norm_num [List.get]) (by norm_num [List.get])
    (by norm_num) (by norm_num) (by norm_num)
    (by norm_num) (by norm_num) (by norm_num)
    (by intro mq hmq; fin_cases hmq <;> norm_num)
    (by intro mq hmq; fin_cases hmq <;> norm_num)

theorem lookup_map_pair {β : Type} (g : String → β) (l : List String) (k : String)
    (h : k ∈ l) : (l.map (fun x => (x, g x))).lookup k = some (g k) := by
  induction l with
  | nil => cases h
  | cons a tl ih =>
      by_cases hk : k = a
      · subst hk; simp [List.lookup]
      · have hmem : k ∈ tl := by
          rcases List.mem_cons.mp h with h1 | h1
          · exact absurd h1 hk
          · exact h1
        have hb : (k == a) = false := beq_eq_false_iff_ne.mpr hk
        simp [List.lookup, hb, ih hmem]

theorem map_fst_map_pair {β : Type} (g : String → β) (l : List String) :
    ((l.map (fun x => (x, g x))).map Prod.fst) = l := by
  induction l with
  | nil => rfl
  | cons a tl ih => simp [ih]

theorem lookup_append_left {β : Type} (l1 l2 : List (String × β)) (k : String)
    (h : k ∈ l1.map Prod.fst) : (l1 ++ l2).lookup k = l1.lookup k := by
  induction l1 with
  | nil => cases h
  | cons a tl ih =>
      by_cases hk : k = a.1
      · simp [List.lookup, hk]
      · have hmem : k ∈ tl.map Prod.fst := by
          rcases List.mem_map.mp h with ⟨x, hx, hx1⟩
          rcases List.mem_cons.mp hx with h1 | h1
          · exact absurd (by rw [← hx1, h1]) hk
          · exact List.mem_map.mpr ⟨x, h1, hx1⟩
        have hb : (k == a.1) = false := beq_eq_false_iff_ne.mpr hk
        simp [List.lookup, hb, ih hmem]

theorem lookup_append_right {β : Type} (l1 l2 : List (String × β)) (k : String)
    (h : k ∉ l1.map Prod.fst) : (l1 ++ l2).lookup k = l2.lookup k := by
  induction l1 with
  | nil => rfl
  | cons a tl ih =>
      have hk : ¬ k = a.1 := fun he => h (by simp [he])
      have hmem : k ∉ tl.map Prod.fst := fun hm => h (by simp [hm])
      have hb : (k == a.1) = false := beq_eq_false_iff_ne.mpr hk
      simp [List.lookup, hb, ih hmem]

theorem lookup_isSome_of_mem_keys {β : Type} (l : List (String × β)) (k : String)
    (h : k ∈ l.map Prod.fst) : ∃ v, l.lookup k = some v := by
  induction l with
  | nil => cases h
  | cons a tl ih =>
      by_cases hk : k = a.1
      · exact ⟨a.2, by simp [List.lookup, hk]⟩
      · have hmem : k ∈ tl.map Prod.fst := by
          rcases List.mem_map.mp h with ⟨x, hx, hx1⟩
          rcases List.mem_cons.mp hx with h1 | h1
          · exact absurd (by rw [← hx1, h1]) hk
          · exact List.mem_map.mpr ⟨x, h1, hx1⟩
        rcases ih hmem with ⟨v, hv⟩
        have hb : (k == a.1) = false := beq_eq_false_iff_ne.mpr hk
        exact ⟨v, by simp [List.lookup, hb, hv]⟩

/-- Claim C5: `PreMixture.update_column` keeps the name column and row
order, results in exactly one column per current material plus the total
column, keeps the data of every material column still present unchanged,
and zero-fills the column of a newly added material. -/
theorem C5_update_column (t : PMTable) (materialNames : List String)
    (total : String) (hname : t.nameLabel ∉ materialNames) :
    (update_column materialNames total t).names = t.names
    ∧ (update_column materialNames total t).nameLabel = t.nameLabel
    ∧ ((update_column materialNames total t).cols.map Prod.fst)
        = materialNames ++ [total]
    ∧ (∀ k ∈ materialNames, k ∈ t.cols.map Prod.fst →
        (update_column materialNames total t).cols.lookup k = t.cols.lookup k)
    ∧ (∀ k ∈ materialNames, k ∉ t.cols.map Prod.fst →
        (update_column materialNames total t).cols.lookup k
          = some (List.replicate t.names.length (FV.fin 0))) := by
  refine ⟨rfl, rfl, ?_, ?_, ?_⟩
  · exact map_fst_map_pair _ _
  · intro k hk hold
    have hmem : k ∈ materialNames ++ [total] := List.mem_append_left _ hk
    rw [update_column]
    rw [lookup_map_pair _ _ _ hmem]
    rw [lookup_append_left _ _ _ hold]
    rcases lookup_isSome_of_mem_keys t.cols k hold with ⟨v, hv⟩
    simp [hv]
  · intro k hk hnew
    have hmem : k ∈ materialNames ++ [total] := List.mem_append_left _ hk
    rw [update_column]
    rw [lookup_map_pair _ _ _ hmem]
    have happ : k ∉ t.cols.map Prod.fst := hnew
    rw [lookup_append_right _ _ _ happ]
    have hfil : k ∈ materialNames.filter
        (fun x => ¬ (x = t.nameLabel ∨ x ∈ t.cols.map Prod.fst)) := by
      refine List.mem_filter.mpr ⟨hk, ?_⟩
      have : ¬ (k = t.nameLabel ∨ k ∈ t.cols.map Prod.fst) := by
        rintro (h1 | h1)
        · exact hname (h1 ▸ hk)
        · exact hnew h1
      simpa using this
    rw [lookup_map_pair (fun _ => List.replicate t.names.length (FV.fin 0)) _ _ hfil]
    rfl

theorem C5_update_column_witness :
    (update_column ["Material 1", "Material 2"] "TotalWeight"
        ⟨"Premixture", ["a"], [("Material 1", [FV.fin 20]),
          ("TotalWeight", [FV.fin 500])]⟩).names = ["a"]
    ∧ (update_column ["Material 1", "Material 2"] "TotalWeight"
        ⟨"Premixture", ["a"], [("Material 1", [FV.fin 20]),
          ("TotalWeight", [FV.fin 500])]⟩).nameLabel = "Premixture"
    ∧ ((update_column ["Material 1", "Material 2"] "TotalWeight"
        ⟨"Premixture", ["a"], [("Material 1", [FV.fin 20]),
          ("TotalWeight", [FV.fin 500])]⟩).cols.map Prod.fst)
        = ["Material 1", "Material 2"] ++ ["TotalWeight"]
    ∧ (∀ k ∈ ["Material 1", "Material 2"],
        k ∈ ([("Material 1", [FV.fin 20]),
          ("TotalWeight", [FV.fin 500])].map Prod.fst) →
        (update_column ["Material 1", "Material 2"] "TotalWeight"
          ⟨"Premixture", ["a"], [("Material 1", [FV.fin 20]),
            ("TotalWeight", [FV.fin 500])]⟩).cols.lookup k
          = [("Material 1", [FV.fin 20]),
            ("TotalWeight", [FV.fin 500])].lookup k)
    ∧ (∀ k ∈ ["Material 1", "Material 2"],
        k ∉ ([("Material 1", [FV.fin 20]),
          ("TotalWeight", [FV.fin 500])].map Prod.fst) →
        (update_column ["Material 1", "Material 2"] "TotalWeight"
          ⟨"Premixture", ["a"], [("Material 1", [FV.fin 20]),
            ("TotalWeight", [FV.fin 500])]⟩).cols.lookup k
          = some (List.replicate 1 (FV.fin 0))) :=
  C5_update_column
    ⟨"Premixture", ["a"], [("Material 1", [FV.fin 20]),
      ("TotalWeight", [FV.fin 500])]⟩
    ["Material 1", "Material 2"] "TotalWeight" (by decide)

/-- Claim C9: after every recomputation of `weight.data`, `Work`'s table
keeps `Weight`'s column shape and name column but every other cell is
reset to unset (`NaN`), whatever was entered before; the same holds for
`WorkPreMixture` against `WeightPremixture`. -/
theorem C9_work_reset (t : List NamedRow) :
    ((work_update_data t).map NamedRow.name = t.map NamedRow.name
      ∧ (work_update_data t).map (fun r => r.cells.length)
          = t.map (fun r => r.cells.length)
      ∧ ∀ r ∈ work_update_data t, ∀ c ∈ r.cells, c = FV.nan)
    ∧ ((work_premixture_update_data t).map NamedRow.name = t.map NamedRow.name
      ∧ (work_premixture_update_data t).map (fun r => r.cells.length)
          = t.map (fun r => r.cells.length)
      ∧ ∀ r ∈ work_premixture_update_data t, ∀ c ∈ r.cells, c = FV.nan) := by
  refine ⟨⟨?_, ?_, ?_⟩, ⟨?_, ?_, ?_⟩⟩ <;>
    simp [work_update_data, work_premixture_update_data, List.map_map]

end ELN
